import Mathlib

/-!
Verification development for the libdnn layered neural-network engine
(cnn.cu: CNN / ConvolutionalLayer / SubSamplingLayer; feature-transform and
dnn sources: ext activations, DNN orchestration, serialization, dataset glue).

The device_matrix substrate (32-bit floats on the GPU) is idealized as total
matrices over ℚ (over ℝ where a claim needs the actual sigmoid): a matrix is
a pair of dimensions together with a total entry function; entries outside
the stated bounds are junk that no theorem depends on.  Activation functions
coming from the external device_math substrate are passed as parameters.
-/

/-- A 2D device matrix: explicit dimensions plus a total entry function.
Mirrors device_matrix<float> (external substrate) over ℚ. -/
structure Img where
  rows : ℕ
  cols : ℕ
  entry : ℕ → ℕ → ℚ

def zeroImg (r c : ℕ) : Img := ⟨r, c, fun _ _ => 0⟩

/-- Elementwise addition (device_matrix operator +=); dimensions of the lhs. -/
def Img.add (A B : Img) : Img := ⟨A.rows, A.cols, fun p q => A.entry p q + B.entry p q⟩

/-- Elementwise subtraction (device_matrix operator -=). -/
def Img.sub (A B : Img) : Img := ⟨A.rows, A.cols, fun p q => A.entry p q - B.entry p q⟩

/-- Elementwise (Hadamard) product: the operator & of feature-transform.h. -/
def Img.had (A B : Img) : Img := ⟨A.rows, A.cols, fun p q => A.entry p q * B.entry p q⟩

/-- Matrix plus scalar, elementwise (oImgs[j][k] + _bias[j]). -/
def Img.addC (A : Img) (c : ℚ) : Img := ⟨A.rows, A.cols, fun p q => A.entry p q + c⟩

/-- Matrix times scalar, elementwise (convn(...) * lr). -/
def Img.smulC (A : Img) (c : ℚ) : Img := ⟨A.rows, A.cols, fun p q => A.entry p q * c⟩

/-- Matrix divided by scalar, elementwise (upsample(...) / (scale*scale)). -/
def Img.divC (A : Img) (c : ℚ) : Img := ⟨A.rows, A.cols, fun p q => A.entry p q / c⟩

/-- Scalar minus matrix, elementwise (1.0f - fouts[j]). -/
def Img.constSub (c : ℚ) (A : Img) : Img := ⟨A.rows, A.cols, fun p q => c - A.entry p q⟩

/-- Elementwise map: an activation applied entrywise (sigmoid(...)). -/
def Img.map (f : ℚ → ℚ) (A : Img) : Img := ⟨A.rows, A.cols, fun p q => f (A.entry p q)⟩

/-- Sum of every in-bounds entry (sum_all of the matrix substrate). -/
def Img.sumAll (A : Img) : ℚ :=
  ∑ p ∈ Finset.range A.rows, ∑ q ∈ Finset.range A.cols, A.entry p q

/-- Modelled from the spec: kernel 180°-rotation (rot180 of cnn-utility, a
convolution primitive of this repository not present under src/). -/
def rot180 (A : Img) : Img :=
  ⟨A.rows, A.cols, fun p q => A.entry (A.rows - 1 - p) (A.cols - 1 - q)⟩

/-- Modelled from the spec: the convn primitive in valid mode (cnn-utility is
not under src/).  Per spec §4.3 the forward pass computes a valid-mode
cross-correlation of the image against the kernel, and the weight gradient a
valid-mode correlation of the rotated input against the delta, so convn
slides the kernel without flipping: out(p,q) = Σ_{u,v} x(p+u, q+v)·k(u,v),
shrinking by kernel_dim - 1. -/
def convn_valid (x k : Img) : Img :=
  ⟨x.rows - k.rows + 1, x.cols - k.cols + 1,
   fun p q => ∑ u ∈ Finset.range k.rows, ∑ v ∈ Finset.range k.cols,
     x.entry (p + u) (q + v) * k.entry u v⟩

/-- Zero-padded read used by full-mode convn: the image shifted by (sr, sc)
with zeros outside its bounds. -/
def paddedEntry (x : Img) (sr sc p q : ℕ) : ℚ :=
  if sr ≤ p ∧ sc ≤ q ∧ p - sr < x.rows ∧ q - sc < x.cols then
    x.entry (p - sr) (q - sc)
  else 0

/-- Modelled from the spec: the convn primitive in full mode (zero-padded so
the kernel slides fully past the image; output grows by kernel_dim - 1). -/
def convn_full (x k : Img) : Img :=
  ⟨x.rows + k.rows - 1, x.cols + k.cols - 1,
   fun p q => ∑ u ∈ Finset.range k.rows, ∑ v ∈ Finset.range k.cols,
     paddedEntry x (k.rows - 1) (k.cols - 1) (p + u) (q + v) * k.entry u v⟩

/-- One sample's image cut out of a batch-of-flattened-columns matrix:
column k unflattened column-major to size sz. -/
def colImg (m : Img) (sz : ℕ × ℕ) (k : ℕ) : Img :=
  ⟨sz.1, sz.2, fun p q => m.entry (q * sz.1 + p) k⟩

/-- Modelled from the spec: reshapeVectors2Images (image reshape utility not
under src/) — each column of the batch matrix becomes one 2D image,
column-major. -/
def reshapeVectors2Images (m : Img) (sz : ℕ × ℕ) : List Img :=
  (List.range m.cols).map (colImg m sz)

/-- Modelled from the spec: reshapeImages2Vectors — inverse direction, each
image flattened column-major into one column; geometry taken from the first
image as in the original. -/
def reshapeImages2Vectors (imgs : List Img) : Img :=
  ⟨(imgs.headD (zeroImg 0 0)).rows * (imgs.headD (zeroImg 0 0)).cols, imgs.length,
   fun r k => (imgs.getD k (zeroImg 0 0)).entry
     (r % (imgs.headD (zeroImg 0 0)).rows) (r / (imgs.headD (zeroImg 0 0)).rows)⟩

/-- ConvolutionalLayer (cnn.cu): n×m grid of kernels, per-output-map bias,
input image geometry from the MIMOFeatureTransform base. -/
structure ConvolutionalLayer where
  nInputs : ℕ
  nOutputs : ℕ
  kernels : ℕ → ℕ → Img
  bias : ℕ → ℚ
  input_img_size : ℕ × ℕ

/-- getKernelHeight (cnn.cu line 374): rows of _kernels[0][0]. -/
def ConvolutionalLayer.getKernelHeight (L : ConvolutionalLayer) : ℕ := (L.kernels 0 0).rows

/-- getKernelWidth (cnn.cu line 370): cols of _kernels[0][0]. -/
def ConvolutionalLayer.getKernelWidth (L : ConvolutionalLayer) : ℕ := (L.kernels 0 0).cols

/-- Modelled from the spec: get_output_img_size for the convolutional layer
(declared in cnn.h, not under src/) — valid-mode geometry shrinks by
kernel_dim - 1. -/
def ConvolutionalLayer.get_output_img_size (L : ConvolutionalLayer) : ℕ × ℕ :=
  (L.input_img_size.1 - L.getKernelHeight + 1, L.input_img_size.2 - L.getKernelWidth + 1)

/-- ConvolutionalLayer::feedForward (cnn.cu lines 205-245).  act is the
external func::sigmoid nonlinearity, passed as a parameter.  Returns none on
the input-map-count mismatch that the original reports by throwing. -/
def ConvolutionalLayer.feedForward (act : ℚ → ℚ) (L : ConvolutionalLayer)
    (fins : List Img) : Option (List Img) :=
  if fins.length ≠ L.nInputs then none
  else
    let batch := (fins.headD (zeroImg 0 0)).cols
    let s := L.get_output_img_size
    let iImgs : ℕ → List Img := fun i =>
      reshapeVectors2Images (fins.getD i (zeroImg 0 0)) L.input_img_size
    let oImg : ℕ → ℕ → Img := fun j k =>
      Img.map act (Img.addC
        ((List.range L.nInputs).foldl
          (fun acc i => acc.add (convn_valid ((iImgs i).getD k (zeroImg 0 0)) (L.kernels i j)))
          (zeroImg s.1 s.2))
        (L.bias j))
    some ((List.range L.nOutputs).map (fun j =>
      reshapeImages2Vectors ((List.range batch).map (fun k => oImg j k))))

/-! ### List and fold helper lemmas -/

@[simp] theorem Img.add_entry (A B : Img) (p q : ℕ) :
    (A.add B).entry p q = A.entry p q + B.entry p q := rfl

@[simp] theorem Img.sub_entry (A B : Img) (p q : ℕ) :
    (A.sub B).entry p q = A.entry p q - B.entry p q := rfl

theorem getD_map_range {α : Type} (f : ℕ → α) {n j : ℕ} (d : α) (h : j < n) :
    ((List.range n).map f).getD j d = f j := by
  rw [List.getD_eq_getElem?_getD]
  simp [List.getElem?_map, List.getElem?_range h]

theorem headD_map_range {α : Type} (f : ℕ → α) {n : ℕ} (d : α) (h : 0 < n) :
    ((List.range n).map f).headD d = f 0 := by
  cases n with
  | zero => omega
  | succ b => rw [List.range_succ_eq_map]; simp

theorem foldl_add_rows (F : ℕ → Img) (A : Img) (l : List ℕ) :
    (l.foldl (fun acc i => acc.add (F i)) A).rows = A.rows := by
  induction l generalizing A with
  | nil => rfl
  | cons x xs ih => simpa [Img.add] using ih (A.add (F x))

theorem foldl_add_cols (F : ℕ → Img) (A : Img) (l : List ℕ) :
    (l.foldl (fun acc i => acc.add (F i)) A).cols = A.cols := by
  induction l generalizing A with
  | nil => rfl
  | cons x xs ih => simpa [Img.add] using ih (A.add (F x))

theorem foldl_add_entry (F : ℕ → Img) (A : Img) (n p q : ℕ) :
    ((List.range n).foldl (fun acc i => acc.add (F i)) A).entry p q
      = A.entry p q + ∑ i ∈ Finset.range n, (F i).entry p q := by
  induction n with
  | zero => simp
  | succ b ih =>
      rw [List.range_succ, List.foldl_append, Finset.sum_range_succ]
      simp only [List.foldl_cons, List.foldl_nil, Img.add_entry, ih]
      ring

theorem foldl_sub_rat (g : ℕ → ℚ) (b : ℚ) (n : ℕ) :
    (List.range n).foldl (fun acc k => acc - g k) b
      = b - ∑ k ∈ Finset.range n, g k := by
  induction n with
  | zero => simp
  | succ m ih =>
      rw [List.range_succ, List.foldl_append, Finset.sum_range_succ]
      simp [ih]
      ring

theorem foldl_imgsub_rows (G : ℕ → Img) (A : Img) (l : List ℕ) :
    (l.foldl (fun acc k => acc.sub (G k)) A).rows = A.rows := by
  induction l generalizing A with
  | nil => rfl
  | cons x xs ih => simpa [Img.sub] using ih (A.sub (G x))

theorem foldl_imgsub_cols (G : ℕ → Img) (A : Img) (l : List ℕ) :
    (l.foldl (fun acc k => acc.sub (G k)) A).cols = A.cols := by
  induction l generalizing A with
  | nil => rfl
  | cons x xs ih => simpa [Img.sub] using ih (A.sub (G x))

theorem foldl_imgsub_entry (G : ℕ → Img) (A : Img) (n p q : ℕ) :
    ((List.range n).foldl (fun acc k => acc.sub (G k)) A).entry p q
      = A.entry p q - ∑ k ∈ Finset.range n, (G k).entry p q := by
  induction n with
  | zero => simp
  | succ b ih =>
      rw [List.range_succ, List.foldl_append, Finset.sum_range_succ]
      simp only [List.foldl_cons, List.foldl_nil, Img.sub_entry, ih]
      ring

theorem flat_mod {R p : ℕ} (q : ℕ) (hp : p < R) : (q * R + p) % R = p := by
  rw [Nat.mul_comm, Nat.mul_add_mod]
  exact Nat.mod_eq_of_lt hp

theorem flat_div {R p : ℕ} (q : ℕ) (hp : p < R) : (q * R + p) / R = q := by
  have hR : 0 < R := lt_of_le_of_lt (Nat.zero_le p) hp
  rw [Nat.mul_comm, Nat.mul_add_div hR, Nat.div_eq_of_lt hp]
  omega

theorem reshape_map_range_rows (g : ℕ → Img) {B : ℕ} (hB : 0 < B) :
    (reshapeImages2Vectors ((List.range B).map g)).rows = (g 0).rows * (g 0).cols := by
  simp only [reshapeImages2Vectors]
  rw [headD_map_range g _ hB]

theorem reshape_map_range_cols (g : ℕ → Img) (B : ℕ) :
    (reshapeImages2Vectors ((List.range B).map g)).cols = B := by
  simp [reshapeImages2Vectors]

theorem reshape_map_range_entry (g : ℕ → Img) {B R : ℕ} (hB : 0 < B)
    (h0 : (g 0).rows = R) {p k : ℕ} (q : ℕ) (hp : p < R) (hk : k < B) :
    (reshapeImages2Vectors ((List.range B).map g)).entry (q * R + p) k
      = (g k).entry p q := by
  simp only [reshapeImages2Vectors, headD_map_range g _ hB, getD_map_range g _ hk, h0,
    flat_mod q hp, flat_div q hp]

@[simp] theorem Img.add_rows (A B : Img) : (A.add B).rows = A.rows := rfl
@[simp] theorem Img.add_cols (A B : Img) : (A.add B).cols = A.cols := rfl
@[simp] theorem Img.sub_rows (A B : Img) : (A.sub B).rows = A.rows := rfl
@[simp] theorem Img.sub_cols (A B : Img) : (A.sub B).cols = A.cols := rfl
@[simp] theorem Img.map_rows (f : ℚ → ℚ) (A : Img) : (A.map f).rows = A.rows := rfl
@[simp] theorem Img.map_cols (f : ℚ → ℚ) (A : Img) : (A.map f).cols = A.cols := rfl
@[simp] theorem Img.map_entry (f : ℚ → ℚ) (A : Img) (p q : ℕ) :
    (A.map f).entry p q = f (A.entry p q) := rfl
@[simp] theorem Img.addC_rows (A : Img) (c : ℚ) : (A.addC c).rows = A.rows := rfl
@[simp] theorem Img.addC_cols (A : Img) (c : ℚ) : (A.addC c).cols = A.cols := rfl
@[simp] theorem Img.addC_entry (A : Img) (c : ℚ) (p q : ℕ) :
    (A.addC c).entry p q = A.entry p q + c := rfl
@[simp] theorem Img.smulC_rows (A : Img) (c : ℚ) : (A.smulC c).rows = A.rows := rfl
@[simp] theorem Img.smulC_cols (A : Img) (c : ℚ) : (A.smulC c).cols = A.cols := rfl
@[simp] theorem Img.smulC_entry (A : Img) (c : ℚ) (p q : ℕ) :
    (A.smulC c).entry p q = A.entry p q * c := rfl
@[simp] theorem Img.divC_rows (A : Img) (c : ℚ) : (A.divC c).rows = A.rows := rfl
@[simp] theorem Img.divC_cols (A : Img) (c : ℚ) : (A.divC c).cols = A.cols := rfl
@[simp] theorem Img.divC_entry (A : Img) (c : ℚ) (p q : ℕ) :
    (A.divC c).entry p q = A.entry p q / c := rfl
@[simp] theorem Img.constSub_rows (c : ℚ) (A : Img) : (Img.constSub c A).rows = A.rows := rfl
@[simp] theorem Img.constSub_cols (c : ℚ) (A : Img) : (Img.constSub c A).cols = A.cols := rfl
@[simp] theorem Img.constSub_entry (c : ℚ) (A : Img) (p q : ℕ) :
    (Img.constSub c A).entry p q = c - A.entry p q := rfl
@[simp] theorem Img.had_rows (A B : Img) : (A.had B).rows = A.rows := rfl
@[simp] theorem Img.had_cols (A B : Img) : (A.had B).cols = A.cols := rfl
@[simp] theorem Img.had_entry (A B : Img) (p q : ℕ) :
    (A.had B).entry p q = A.entry p q * B.entry p q := rfl
@[simp] theorem zeroImg_rows (r c : ℕ) : (zeroImg r c).rows = r := rfl
@[simp] theorem zeroImg_cols (r c : ℕ) : (zeroImg r c).cols = c := rfl
@[simp] theorem zeroImg_entry (r c p q : ℕ) : (zeroImg r c).entry p q = 0 := rfl
@[simp] theorem colImg_rows (m : Img) (sz : ℕ × ℕ) (k : ℕ) : (colImg m sz k).rows = sz.1 := rfl
@[simp] theorem colImg_cols (m : Img) (sz : ℕ × ℕ) (k : ℕ) : (colImg m sz k).cols = sz.2 := rfl
@[simp] theorem colImg_entry (m : Img) (sz : ℕ × ℕ) (k p q : ℕ) :
    (colImg m sz k).entry p q = m.entry (q * sz.1 + p) k := rfl
@[simp] theorem convn_valid_rows (x k : Img) : (convn_valid x k).rows = x.rows - k.rows + 1 := rfl
@[simp] theorem convn_valid_cols (x k : Img) : (convn_valid x k).cols = x.cols - k.cols + 1 := rfl
theorem convn_valid_entry (x k : Img) (p q : ℕ) :
    (convn_valid x k).entry p q
      = ∑ u ∈ Finset.range k.rows, ∑ v ∈ Finset.range k.cols,
          x.entry (p + u) (q + v) * k.entry u v := rfl
@[simp] theorem convn_full_rows (x k : Img) : (convn_full x k).rows = x.rows + k.rows - 1 := rfl
@[simp] theorem convn_full_cols (x k : Img) : (convn_full x k).cols = x.cols + k.cols - 1 := rfl

theorem getD_mem_of_lt {α : Type} (l : List α) (d : α) {i : ℕ} (h : i < l.length) :
    l.getD i d ∈ l := by
  rw [List.getD_eq_getElem l d h]
  exact List.getElem_mem h

theorem reshapeV2I_getD (m : Img) (sz : ℕ × ℕ) {k : ℕ} (hk : k < m.cols) :
    (reshapeVectors2Images m sz).getD k (zeroImg 0 0) = colImg m sz k := by
  unfold reshapeVectors2Images
  exact getD_map_range _ _ hk

/-- Claim C1: for every convolutional layer and every input list whose length
equals the layer's number of input maps, feedForward computes, for every
output map j and every sample k, act (the sigmoid) of the sum over input maps
i of the valid-mode cross-correlation of input image i with kernel[i][j],
plus the per-output-map bias b[j], and returns the results reshaped back to
flattened-vector-per-map (column-major) form. -/
theorem C1_conv_feedForward (act : ℚ → ℚ) (L : ConvolutionalLayer) (fins : List Img)
    (hlen : fins.length = L.nInputs)
    (hb : 0 < (fins.headD (zeroImg 0 0)).cols)
    (hcols : ∀ g ∈ fins, g.cols = (fins.headD (zeroImg 0 0)).cols) :
    ∃ fouts, L.feedForward act fins = some fouts ∧
      fouts.length = L.nOutputs ∧
      ∀ j < L.nOutputs,
        (fouts.getD j (zeroImg 0 0)).rows
            = L.get_output_img_size.1 * L.get_output_img_size.2 ∧
        (fouts.getD j (zeroImg 0 0)).cols = (fins.headD (zeroImg 0 0)).cols ∧
        ∀ p < L.get_output_img_size.1, ∀ q < L.get_output_img_size.2,
          ∀ k < (fins.headD (zeroImg 0 0)).cols,
          (fouts.getD j (zeroImg 0 0)).entry (q * L.get_output_img_size.1 + p) k
            = act ((∑ i ∈ Finset.range L.nInputs,
                ∑ u ∈ Finset.range (L.kernels i j).rows,
                ∑ v ∈ Finset.range (L.kernels i j).cols,
                (fins.getD i (zeroImg 0 0)).entry
                    ((q + v) * L.input_img_size.1 + (p + u)) k
                  * (L.kernels i j).entry u v) + L.bias j) := by
  have hne : ¬ (fins.length ≠ L.nInputs) := by simp [hlen]
  refine ⟨(List.range L.nOutputs).map (fun j =>
      reshapeImages2Vectors ((List.range ((fins.headD (zeroImg 0 0)).cols)).map (fun k =>
        Img.map act (Img.addC
          ((List.range L.nInputs).foldl
            (fun acc i => acc.add (convn_valid
              ((reshapeVectors2Images (fins.getD i (zeroImg 0 0)) L.input_img_size).getD k
                (zeroImg 0 0))
              (L.kernels i j)))
            (zeroImg L.get_output_img_size.1 L.get_output_img_size.2))
          (L.bias j))))), ?_, by simp, ?_⟩
  · simp only [ConvolutionalLayer.feedForward, hne, if_false]
  · intro j hj
    rw [getD_map_range _ (zeroImg 0 0) hj]
    have hkey : ∀ i ∈ Finset.range L.nInputs, ∀ k < (fins.headD (zeroImg 0 0)).cols,
        (reshapeVectors2Images (fins.getD i (zeroImg 0 0)) L.input_img_size).getD k
            (zeroImg 0 0)
          = colImg (fins.getD i (zeroImg 0 0)) L.input_img_size k := by
      intro i hi k hk
      have hi' : i < fins.length := by
        rw [hlen]; exact Finset.mem_range.mp hi
      have hc : (fins.getD i (zeroImg 0 0)).cols = (fins.headD (zeroImg 0 0)).cols :=
        hcols _ (getD_mem_of_lt fins (zeroImg 0 0) hi')
      exact reshapeV2I_getD _ _ (by omega)
    have h0rows : ((fun k => Img.map act (Img.addC
        ((List.range L.nInputs).foldl
          (fun acc i => acc.add (convn_valid
            ((reshapeVectors2Images (fins.getD i (zeroImg 0 0)) L.input_img_size).getD k
              (zeroImg 0 0))
            (L.kernels i j)))
          (zeroImg L.get_output_img_size.1 L.get_output_img_size.2))
        (L.bias j))) 0).rows = L.get_output_img_size.1 := by
      simp [foldl_add_rows]
    refine ⟨?_, ?_, ?_⟩
    · rw [reshape_map_range_rows _ hb]
      simp [foldl_add_rows, foldl_add_cols]
    · rw [reshape_map_range_cols]
    · intro p hp q hq k hk
      rw [reshape_map_range_entry _ hb h0rows q hp hk]
      simp only [Img.map_entry, Img.addC_entry]
      rw [foldl_add_entry]
      simp only [zeroImg_entry, zero_add]
      congr 1
      congr 1
      refine Finset.sum_congr rfl ?_
      intro i hi
      rw [hkey i hi k hk, convn_valid_entry]
      refine Finset.sum_congr rfl fun u _ => Finset.sum_congr rfl fun v _ => ?_
      rw [colImg_entry]

/-- Witness for C1 at a concrete layer: one 1×1 kernel with value 2, bias 3,
a single 2×2 input image (batch of one) — the hypotheses hold and the
theorem applies. -/
theorem C1_conv_feedForward_witness :
    (([(⟨4, 1, fun r _ => (r : ℚ)⟩ : Img)] : List Img).length
        = (⟨1, 1, fun _ _ => ⟨1, 1, fun _ _ => 2⟩, fun _ => 3, (2, 2)⟩ :
            ConvolutionalLayer).nInputs)
    ∧ (0 < (([(⟨4, 1, fun r _ => (r : ℚ)⟩ : Img)] : List Img).headD (zeroImg 0 0)).cols)
    ∧ (∃ fouts,
        (⟨1, 1, fun _ _ => ⟨1, 1, fun _ _ => 2⟩, fun _ => 3, (2, 2)⟩ :
            ConvolutionalLayer).feedForward (fun x => x)
          [(⟨4, 1, fun r _ => (r : ℚ)⟩ : Img)] = some fouts ∧
        fouts.length = 1 ∧
        ∀ j < 1,
          (fouts.getD j (zeroImg 0 0)).rows = 4 ∧
          (fouts.getD j (zeroImg 0 0)).cols = 1 ∧
          ∀ p < 2, ∀ q < 2, ∀ k < 1,
            (fouts.getD j (zeroImg 0 0)).entry (q * 2 + p) k
              = (fun x => x) ((∑ i ∈ Finset.range 1,
                  ∑ u ∈ Finset.range 1, ∑ v ∈ Finset.range 1,
                  (([(⟨4, 1, fun r _ => (r : ℚ)⟩ : Img)] : List Img).getD i
                      (zeroImg 0 0)).entry ((q + v) * 2 + (p + u)) k * 2) + 3)) :=
  ⟨rfl, by decide,
   C1_conv_feedForward (fun x => x)
     ⟨1, 1, fun _ _ => ⟨1, 1, fun _ _ => 2⟩, fun _ => 3, (2, 2)⟩
     [(⟨4, 1, fun r _ => (r : ℚ)⟩ : Img)] rfl (by decide)
     (by intro g hg; simp only [List.mem_singleton] at hg; subst hg; rfl)⟩

/-- ConvolutionalLayer::feedBackward (cnn.cu lines 247-295): per input map and
sample, sum over output maps the full-mode convn of the output delta image
against the 180°-rotated kernel, then reshape back to columns. -/
def ConvolutionalLayer.feedBackward (L : ConvolutionalLayer) (deltas : List Img) :
    List Img :=
  let s := L.input_img_size
  let batch := (deltas.headD (zeroImg 0 0)).cols
  let oImgs : ℕ → List Img := fun j =>
    reshapeVectors2Images (deltas.getD j (zeroImg 0 0)) L.get_output_img_size
  (List.range L.nInputs).map (fun i =>
    reshapeImages2Vectors ((List.range batch).map (fun k =>
      (List.range L.nOutputs).foldl
        (fun acc j => acc.add (convn_full ((oImgs j).getD k (zeroImg 0 0))
          (rot180 (L.kernels i j))))
        (zeroImg s.1 s.2))))

/-- ConvolutionalLayer::backPropagate (cnn.cu lines 308-361): form the local
deltas fout ⊙ (1-fout) ⊙ error, overwrite the errors through feedBackward
(with the old kernels), then — fused in the same call, with no separate
accumulate-then-update phase — subtract lr/batch_size times the valid-mode
convn of the rotated input image with the delta image from each kernel,
sample by sample, and the summed delta times lr/batch_size from each bias.
Returns the updated layer together with the overwritten errors. -/
def ConvolutionalLayer.backPropagate (L : ConvolutionalLayer)
    (errors fins fouts : List Img) (learning_rate : ℚ) :
    ConvolutionalLayer × List Img :=
  let batch := (fins.headD (zeroImg 0 0)).cols
  let deltas : List Img := (List.range L.nOutputs).map (fun j =>
    ((fouts.getD j (zeroImg 0 0)).had
      (Img.constSub 1 (fouts.getD j (zeroImg 0 0)))).had
      (errors.getD j (zeroImg 0 0)))
  let errors' := L.feedBackward deltas
  let iImgs : ℕ → List Img := fun i =>
    reshapeVectors2Images (fins.getD i (zeroImg 0 0)) L.input_img_size
  let oImgs : ℕ → List Img := fun j =>
    reshapeVectors2Images (deltas.getD j (zeroImg 0 0)) L.get_output_img_size
  let lr := learning_rate / (batch : ℚ)
  let kernels' : ℕ → ℕ → Img := fun i j =>
    (List.range batch).foldl
      (fun K k => K.sub ((convn_valid (rot180 ((iImgs i).getD k (zeroImg 0 0)))
        ((oImgs j).getD k (zeroImg 0 0))).smulC lr))
      (L.kernels i j)
  let bias' : ℕ → ℚ := fun j =>
    (List.range batch).foldl
      (fun b k => b - ((oImgs j).getD k (zeroImg 0 0)).sumAll * lr)
      (L.bias j)
  ({ L with kernels := kernels', bias := bias' }, errors')

/-- The local delta image of output map j, sample k, written out explicitly:
fout ⊙ (1 - fout) ⊙ error at the column-major position of pixel (p, q). -/
def deltaImg (fouts errors : List Img) (so : ℕ × ℕ) (j k : ℕ) : Img :=
  ⟨so.1, so.2, fun p q =>
    (fouts.getD j (zeroImg 0 0)).entry (q * so.1 + p) k
      * (1 - (fouts.getD j (zeroImg 0 0)).entry (q * so.1 + p) k)
      * (errors.getD j (zeroImg 0 0)).entry (q * so.1 + p) k⟩

theorem feedBackward_spec (L : ConvolutionalLayer) (deltas : List Img)
    (hb : 0 < (deltas.headD (zeroImg 0 0)).cols)
    (hlen : deltas.length = L.nOutputs)
    (hcols : ∀ g ∈ deltas, g.cols = (deltas.headD (zeroImg 0 0)).cols) :
    (L.feedBackward deltas).length = L.nInputs ∧
    ∀ i < L.nInputs,
      ((L.feedBackward deltas).getD i (zeroImg 0 0)).rows
          = L.input_img_size.1 * L.input_img_size.2 ∧
      ((L.feedBackward deltas).getD i (zeroImg 0 0)).cols
          = (deltas.headD (zeroImg 0 0)).cols ∧
      ∀ p < L.input_img_size.1, ∀ q < L.input_img_size.2,
        ∀ k < (deltas.headD (zeroImg 0 0)).cols,
        ((L.feedBackward deltas).getD i (zeroImg 0 0)).entry
            (q * L.input_img_size.1 + p) k
          = ∑ j ∈ Finset.range L.nOutputs,
              (convn_full (colImg (deltas.getD j (zeroImg 0 0)) L.get_output_img_size k)
                (rot180 (L.kernels i j))).entry p q := by
  simp only [ConvolutionalLayer.feedBackward]
  refine ⟨by simp, ?_⟩
  intro i hi
  rw [getD_map_range _ (zeroImg 0 0) hi]
  have h0rows : ((fun k => (List.range L.nOutputs).foldl
      (fun acc j => acc.add (convn_full
        ((reshapeVectors2Images (deltas.getD j (zeroImg 0 0)) L.get_output_img_size).getD k
          (zeroImg 0 0))
        (rot180 (L.kernels i j))))
      (zeroImg L.input_img_size.1 L.input_img_size.2)) 0).rows
        = L.input_img_size.1 := by
    simp [foldl_add_rows]
  refine ⟨?_, ?_, ?_⟩
  · rw [reshape_map_range_rows _ hb]
    simp [foldl_add_rows, foldl_add_cols]
  · rw [reshape_map_range_cols]
  · intro p hp q hq k hk
    rw [reshape_map_range_entry _ hb h0rows q hp hk, foldl_add_entry]
    simp only [zeroImg_entry, zero_add]
    refine Finset.sum_congr rfl ?_
    intro j hj
    have hj' : j < deltas.length := by rw [hlen]; exact Finset.mem_range.mp hj
    have hc : (deltas.getD j (zeroImg 0 0)).cols = (deltas.headD (zeroImg 0 0)).cols :=
      hcols _ (getD_mem_of_lt deltas (zeroImg 0 0) hj')
    rw [reshapeV2I_getD _ _ (by omega)]

/-- Claim C2: convolutional backPropagate first forms the local delta
fout ⊙ (1-fout) ⊙ error per output map, overwrites each input-side error with
the sum over output maps of the full-mode convn of the delta image against
the 180°-rotated (old) kernel, and in the same fused call updates kernel[i][j]
by subtracting learning_rate/batch_size times the valid-mode convn of the
rotated input image with the delta image accumulated over the batch, and
bias[j] by learning_rate/batch_size times the batch-summed delta. -/
theorem C2_conv_backPropagate (L : ConvolutionalLayer)
    (errors fins fouts : List Img) (learning_rate : ℚ)
    (hfin : fins.length = L.nInputs)
    (hfout : fouts.length = L.nOutputs)
    (hm : 0 < L.nOutputs)
    (hB : 0 < (fins.headD (zeroImg 0 0)).cols)
    (hfc : ∀ g ∈ fins, g.cols = (fins.headD (zeroImg 0 0)).cols)
    (hoc : ∀ g ∈ fouts, g.cols = (fins.headD (zeroImg 0 0)).cols) :
    ((L.backPropagate errors fins fouts learning_rate).1.nInputs = L.nInputs) ∧
    ((L.backPropagate errors fins fouts learning_rate).1.nOutputs = L.nOutputs) ∧
    ((L.backPropagate errors fins fouts learning_rate).1.input_img_size
        = L.input_img_size) ∧
    ((L.backPropagate errors fins fouts learning_rate).2.length = L.nInputs) ∧
    (∀ i < L.nInputs,
      ((L.backPropagate errors fins fouts learning_rate).2.getD i (zeroImg 0 0)).rows
          = L.input_img_size.1 * L.input_img_size.2 ∧
      ((L.backPropagate errors fins fouts learning_rate).2.getD i (zeroImg 0 0)).cols
          = (fins.headD (zeroImg 0 0)).cols ∧
      ∀ p < L.input_img_size.1, ∀ q < L.input_img_size.2,
        ∀ k < (fins.headD (zeroImg 0 0)).cols,
        ((L.backPropagate errors fins fouts learning_rate).2.getD i (zeroImg 0 0)).entry
            (q * L.input_img_size.1 + p) k
          = ∑ j ∈ Finset.range L.nOutputs,
              (convn_full (deltaImg fouts errors L.get_output_img_size j k)
                (rot180 (L.kernels i j))).entry p q) ∧
    (∀ i < L.nInputs, ∀ j < L.nOutputs,
      ((L.backPropagate errors fins fouts learning_rate).1.kernels i j).rows
          = (L.kernels i j).rows ∧
      ((L.backPropagate errors fins fouts learning_rate).1.kernels i j).cols
          = (L.kernels i j).cols ∧
      ∀ u v : ℕ,
        ((L.backPropagate errors fins fouts learning_rate).1.kernels i j).entry u v
          = (L.kernels i j).entry u v
            - learning_rate / ((fins.headD (zeroImg 0 0)).cols : ℚ)
              * ∑ k ∈ Finset.range (fins.headD (zeroImg 0 0)).cols,
                  (convn_valid (rot180 (colImg (fins.getD i (zeroImg 0 0))
                      L.input_img_size k))
                    (deltaImg fouts errors L.get_output_img_size j k)).entry u v) ∧
    (∀ j < L.nOutputs,
      (L.backPropagate errors fins fouts learning_rate).1.bias j
        = L.bias j
          - learning_rate / ((fins.headD (zeroImg 0 0)).cols : ℚ)
            * ∑ k ∈ Finset.range (fins.headD (zeroImg 0 0)).cols,
                (deltaImg fouts errors L.get_output_img_size j k).sumAll) := by
  have hDelta : ∀ j k : ℕ,
      colImg (((fouts.getD j (zeroImg 0 0)).had
          (Img.constSub 1 (fouts.getD j (zeroImg 0 0)))).had
          (errors.getD j (zeroImg 0 0))) L.get_output_img_size k
        = deltaImg fouts errors L.get_output_img_size j k := fun _ _ => rfl
  have hdl : ((List.range L.nOutputs).map (fun j =>
      ((fouts.getD j (zeroImg 0 0)).had
        (Img.constSub 1 (fouts.getD j (zeroImg 0 0)))).had
        (errors.getD j (zeroImg 0 0)))).headD (zeroImg 0 0)
        = ((fouts.getD 0 (zeroImg 0 0)).had
          (Img.constSub 1 (fouts.getD 0 (zeroImg 0 0)))).had
          (errors.getD 0 (zeroImg 0 0)) :=
    headD_map_range _ (zeroImg 0 0) hm
  have hheadcols : (((List.range L.nOutputs).map (fun j =>
      ((fouts.getD j (zeroImg 0 0)).had
        (Img.constSub 1 (fouts.getD j (zeroImg 0 0)))).had
        (errors.getD j (zeroImg 0 0)))).headD (zeroImg 0 0)).cols
        = (fins.headD (zeroImg 0 0)).cols := by
    rw [hdl, Img.had_cols, Img.had_cols]
    exact hoc _ (getD_mem_of_lt fouts (zeroImg 0 0) (by omega))
  have hdcols : ∀ g ∈ (List.range L.nOutputs).map (fun j =>
      ((fouts.getD j (zeroImg 0 0)).had
        (Img.constSub 1 (fouts.getD j (zeroImg 0 0)))).had
        (errors.getD j (zeroImg 0 0))),
      g.cols = (fins.headD (zeroImg 0 0)).cols := by
    intro g hg
    rcases List.mem_map.mp hg with ⟨a, ha, rfl⟩
    rw [Img.had_cols, Img.had_cols]
    have ha' : a < fouts.length := by
      rw [hfout]; exact List.mem_range.mp ha
    exact hoc _ (getD_mem_of_lt fouts (zeroImg 0 0) ha')
  have hfb := feedBackward_spec L ((List.range L.nOutputs).map (fun j =>
      ((fouts.getD j (zeroImg 0 0)).had
        (Img.constSub 1 (fouts.getD j (zeroImg 0 0)))).had
        (errors.getD j (zeroImg 0 0))))
    (by rw [hheadcols]; exact hB) (by simp)
    (fun g hg => by rw [hdcols g hg, hheadcols])
  refine ⟨rfl, rfl, rfl, ?_, ?_, ?_, ?_⟩
  · simpa only [ConvolutionalLayer.backPropagate] using hfb.1
  · intro i hi
    have h := hfb.2 i hi
    refine ⟨?_, ?_, ?_⟩
    · simpa only [ConvolutionalLayer.backPropagate] using h.1
    · have := h.2.1
      rw [hheadcols] at this
      simpa only [ConvolutionalLayer.backPropagate] using this
    · intro p hp q hq k hk
      have hk' : k < (((List.range L.nOutputs).map (fun j =>
          ((fouts.getD j (zeroImg 0 0)).had
            (Img.constSub 1 (fouts.getD j (zeroImg 0 0)))).had
            (errors.getD j (zeroImg 0 0)))).headD (zeroImg 0 0)).cols := by
        rw [hheadcols]; exact hk
      have h3 := h.2.2 p hp q hq k hk'
      simp only [ConvolutionalLayer.backPropagate]
      rw [h3]
      refine Finset.sum_congr rfl ?_
      intro j hj
      rw [getD_map_range _ (zeroImg 0 0) (Finset.mem_range.mp hj), hDelta]
  · intro i hi j hj
    have hij : ∀ k < (fins.headD (zeroImg 0 0)).cols,
        (reshapeVectors2Images (fins.getD i (zeroImg 0 0)) L.input_img_size).getD k
            (zeroImg 0 0)
          = colImg (fins.getD i (zeroImg 0 0)) L.input_img_size k := by
      intro k hk
      have hi' : i < fins.length := by rw [hfin]; exact hi
      have hc : (fins.getD i (zeroImg 0 0)).cols = (fins.headD (zeroImg 0 0)).cols :=
        hfc _ (getD_mem_of_lt fins (zeroImg 0 0) hi')
      exact reshapeV2I_getD _ _ (by omega)
    have hdj : ∀ k < (fins.headD (zeroImg 0 0)).cols,
        (reshapeVectors2Images ((((List.range L.nOutputs).map (fun j' =>
            ((fouts.getD j' (zeroImg 0 0)).had
              (Img.constSub 1 (fouts.getD j' (zeroImg 0 0)))).had
              (errors.getD j' (zeroImg 0 0)))).getD j (zeroImg 0 0)))
            L.get_output_img_size).getD k (zeroImg 0 0)
          = deltaImg fouts errors L.get_output_img_size j k := by
      intro k hk
      rw [getD_map_range _ (zeroImg 0 0) hj]
      rw [reshapeV2I_getD]
      · exact hDelta j k
      · have hj' : j < fouts.length := by rw [hfout]; exact hj
        have : (fouts.getD j (zeroImg 0 0)).cols = (fins.headD (zeroImg 0 0)).cols :=
          hoc _ (getD_mem_of_lt fouts (zeroImg 0 0) hj')
        simpa [Img.had_cols] using (by omega : k < (fouts.getD j (zeroImg 0 0)).cols)
    simp only [ConvolutionalLayer.backPropagate]
    refine ⟨by rw [foldl_imgsub_rows], by rw [foldl_imgsub_cols], ?_⟩
    intro u v
    rw [foldl_imgsub_entry]
    have hsum : ∑ k ∈ Finset.range (fins.headD (zeroImg 0 0)).cols,
        ((convn_valid (rot180 ((reshapeVectors2Images (fins.getD i (zeroImg 0 0))
            L.input_img_size).getD k (zeroImg 0 0)))
          ((reshapeVectors2Images ((((List.range L.nOutputs).map (fun j' =>
              ((fouts.getD j' (zeroImg 0 0)).had
                (Img.constSub 1 (fouts.getD j' (zeroImg 0 0)))).had
                (errors.getD j' (zeroImg 0 0)))).getD j (zeroImg 0 0)))
              L.get_output_img_size).getD k (zeroImg 0 0))).smulC
          (learning_rate / ((fins.headD (zeroImg 0 0)).cols : ℚ))).entry u v
        = ∑ k ∈ Finset.range (fins.headD (zeroImg 0 0)).cols,
            (convn_valid (rot180 (colImg (fins.getD i (zeroImg 0 0)) L.input_img_size k))
              (deltaImg fouts errors L.get_output_img_size j k)).entry u v
            * (learning_rate / ((fins.headD (zeroImg 0 0)).cols : ℚ)) := by
      refine Finset.sum_congr rfl ?_
      intro k hk
      rw [Img.smulC_entry, hij k (Finset.mem_range.mp hk), hdj k (Finset.mem_range.mp hk)]
    rw [hsum, ← Finset.sum_mul, mul_comm]
  · intro j hj
    have hdj : ∀ k < (fins.headD (zeroImg 0 0)).cols,
        (reshapeVectors2Images ((((List.range L.nOutputs).map (fun j' =>
            ((fouts.getD j' (zeroImg 0 0)).had
              (Img.constSub 1 (fouts.getD j' (zeroImg 0 0)))).had
              (errors.getD j' (zeroImg 0 0)))).getD j (zeroImg 0 0)))
            L.get_output_img_size).getD k (zeroImg 0 0)
          = deltaImg fouts errors L.get_output_img_size j k := by
      intro k hk
      rw [getD_map_range _ (zeroImg 0 0) hj]
      rw [reshapeV2I_getD]
      · exact hDelta j k
      · have hj' : j < fouts.length := by rw [hfout]; exact hj
        have : (fouts.getD j (zeroImg 0 0)).cols = (fins.headD (zeroImg 0 0)).cols :=
          hoc _ (getD_mem_of_lt fouts (zeroImg 0 0) hj')
        simpa [Img.had_cols] using (by omega : k < (fouts.getD j (zeroImg 0 0)).cols)
    simp only [ConvolutionalLayer.backPropagate]
    rw [foldl_sub_rat]
    have hsum : ∑ k ∈ Finset.range (fins.headD (zeroImg 0 0)).cols,
        ((reshapeVectors2Images ((((List.range L.nOutputs).map (fun j' =>
            ((fouts.getD j' (zeroImg 0 0)).had
              (Img.constSub 1 (fouts.getD j' (zeroImg 0 0)))).had
              (errors.getD j' (zeroImg 0 0)))).getD j (zeroImg 0 0)))
            L.get_output_img_size).getD k (zeroImg 0 0)).sumAll
          * (learning_rate / ((fins.headD (zeroImg 0 0)).cols : ℚ))
        = ∑ k ∈ Finset.range (fins.headD (zeroImg 0 0)).cols,
            (deltaImg fouts errors L.get_output_img_size j k).sumAll
            * (learning_rate / ((fins.headD (zeroImg 0 0)).cols : ℚ)) := by
      refine Finset.sum_congr rfl ?_
      intro k hk
      rw [hdj k (Finset.mem_range.mp hk)]
    rw [hsum, ← Finset.sum_mul, mul_comm]

/-- Witness for C2: a 1-input-map, 1-output-map layer on 1×1 images, batch 1,
fout = 1/2, error = 4, learning rate 10; the delta is 1/2·(1-1/2)·4 = 1, so
the bias update gives 3 - (10/1)·1 = -7, obtained through the theorem. -/
theorem C2_conv_backPropagate_witness :
    ((⟨1, 1, fun _ _ => ⟨1, 1, fun _ _ => 2⟩, fun _ => 3, (1, 1)⟩ :
        ConvolutionalLayer).backPropagate
      [(⟨1, 1, fun _ _ => 4⟩ : Img)] [(⟨1, 1, fun _ _ => 5⟩ : Img)]
      [(⟨1, 1, fun _ _ => 1/2⟩ : Img)] 10).1.bias 0 = -7 := by
  have h := C2_conv_backPropagate
    ⟨1, 1, fun _ _ => ⟨1, 1, fun _ _ => 2⟩, fun _ => 3, (1, 1)⟩
    [(⟨1, 1, fun _ _ => 4⟩ : Img)] [(⟨1, 1, fun _ _ => 5⟩ : Img)]
    [(⟨1, 1, fun _ _ => 1/2⟩ : Img)] 10 rfl rfl (by decide) (by decide)
    (by intro g hg; simp only [List.mem_singleton] at hg; subst hg; rfl)
    (by intro g hg; simp only [List.mem_singleton] at hg; subst hg; rfl)
  have hb := h.2.2.2.2.2.2 0 (by decide)
  rw [hb]
  norm_num [deltaImg, Img.sumAll, ConvolutionalLayer.get_output_img_size,
    ConvolutionalLayer.getKernelHeight, ConvolutionalLayer.getKernelWidth]

/-- SubSamplingLayer (cnn.cu lines 386-388): fixed integer pooling factor,
input geometry from the MIMOFeatureTransform base (nInputs = nOutputs). -/
structure SubSamplingLayer where
  nInputs : ℕ
  nOutputs : ℕ
  scale : ℕ
  input_img_size : ℕ × ℕ

/-- Modelled from the spec: get_output_img_size for the sub-sampling layer
(declared in cnn.h, not under src/) — geometry divides by the scale. -/
def SubSamplingLayer.get_output_img_size (L : SubSamplingLayer) : ℕ × ℕ :=
  (L.input_img_size.1 / L.scale, L.input_img_size.2 / L.scale)

/-- Modelled from the spec: upsample (cnn-utility, not under src/) — blow the
image back up to the target resolution, each source pixel replicated over its
block (the replication factor recovered from the two geometries). -/
def upsample (x : Img) (sz : ℕ × ℕ) : Img :=
  ⟨sz.1, sz.2, fun p q => x.entry (p / (sz.1 / x.rows)) (q / (sz.2 / x.cols))⟩

/-- SubSamplingLayer::feedBackward (cnn.cu lines 426-456): upsample each
output-side delta image back to the input resolution, divide by scale², and
reshape back to flattened columns. -/
def SubSamplingLayer.feedBackward (L : SubSamplingLayer) (deltas : List Img) :
    List Img :=
  let N := deltas.length
  let batch := (deltas.headD (zeroImg 0 0)).cols
  let oImgs : ℕ → List Img := fun i =>
    reshapeVectors2Images (deltas.getD i (zeroImg 0 0)) L.get_output_img_size
  (List.range N).map (fun i =>
    reshapeImages2Vectors ((List.range batch).map (fun k =>
      (upsample ((oImgs i).getD k (zeroImg 0 0)) L.input_img_size).divC
        ((L.scale * L.scale : ℕ) : ℚ))))

/-- SubSamplingLayer::backPropagate (cnn.cu lines 458-465): copy the incoming
errors to deltas, forward them through feedBackward; no parameter of the
layer is touched. -/
def SubSamplingLayer.backPropagate (L : SubSamplingLayer)
    (errors fins fouts : List Img) (learning_rate : ℚ) :
    SubSamplingLayer × List Img :=
  (L, L.feedBackward errors)

/-- Claim C3: sub-sampling backPropagate modifies no layer parameters and
replaces each error map with the upsampling of the output-side delta back to
the input resolution divided by scale²: every pixel (p, q) of the propagated
error carries the output delta of its pooled block (p/s, q/s), uniformly
divided by s² — the exact adjoint of the pooling. -/
theorem C3_subsampling_backPropagate (L : SubSamplingLayer)
    (errors fins fouts : List Img) (learning_rate : ℚ)
    (hs : 0 < L.scale)
    (hd1 : L.scale ∣ L.input_img_size.1) (hd2 : L.scale ∣ L.input_img_size.2)
    (h1 : 0 < L.input_img_size.1) (h2 : 0 < L.input_img_size.2)
    (hB : 0 < (errors.headD (zeroImg 0 0)).cols)
    (hec : ∀ g ∈ errors, g.cols = (errors.headD (zeroImg 0 0)).cols) :
    ((L.backPropagate errors fins fouts learning_rate).1 = L) ∧
    ((L.backPropagate errors fins fouts learning_rate).2.length = errors.length) ∧
    ∀ i < errors.length,
      ((L.backPropagate errors fins fouts learning_rate).2.getD i (zeroImg 0 0)).rows
          = L.input_img_size.1 * L.input_img_size.2 ∧
      ((L.backPropagate errors fins fouts learning_rate).2.getD i (zeroImg 0 0)).cols
          = (errors.headD (zeroImg 0 0)).cols ∧
      ∀ p < L.input_img_size.1, ∀ q < L.input_img_size.2,
        ∀ k < (errors.headD (zeroImg 0 0)).cols,
        ((L.backPropagate errors fins fouts learning_rate).2.getD i (zeroImg 0 0)).entry
            (q * L.input_img_size.1 + p) k
          = (errors.getD i (zeroImg 0 0)).entry
              ((q / L.scale) * (L.input_img_size.1 / L.scale) + p / L.scale) k
            / ((L.scale * L.scale : ℕ) : ℚ) := by
  have hratio1 : L.input_img_size.1 / (L.input_img_size.1 / L.scale) = L.scale := by
    rcases hd1 with ⟨t, ht⟩
    have ht' : 0 < t := by
      rcases Nat.eq_zero_or_pos t with h | h
      · subst h; omega
      · exact h
    rw [ht, Nat.mul_div_cancel_left t hs, Nat.mul_div_cancel _ ht']
  have hratio2 : L.input_img_size.2 / (L.input_img_size.2 / L.scale) = L.scale := by
    rcases hd2 with ⟨t, ht⟩
    have ht' : 0 < t := by
      rcases Nat.eq_zero_or_pos t with h | h
      · subst h; omega
      · exact h
    rw [ht, Nat.mul_div_cancel_left t hs, Nat.mul_div_cancel _ ht']
  simp only [SubSamplingLayer.backPropagate, SubSamplingLayer.feedBackward]
  refine ⟨trivial, by simp, ?_⟩
  intro i hi
  rw [getD_map_range _ (zeroImg 0 0) hi]
  have h0rows : ((fun k =>
      (upsample ((reshapeVectors2Images (errors.getD i (zeroImg 0 0))
          L.get_output_img_size).getD k (zeroImg 0 0)) L.input_img_size).divC
        ((L.scale * L.scale : ℕ) : ℚ)) 0).rows = L.input_img_size.1 := rfl
  refine ⟨?_, ?_, ?_⟩
  · rw [reshape_map_range_rows _ hB]
    rfl
  · rw [reshape_map_range_cols]
  · intro p hp q hq k hk
    rw [reshape_map_range_entry _ hB h0rows q hp hk]
    have hc : (errors.getD i (zeroImg 0 0)).cols = (errors.headD (zeroImg 0 0)).cols :=
      hec _ (getD_mem_of_lt errors (zeroImg 0 0) hi)
    rw [reshapeV2I_getD _ _ (by omega)]
    simp only [Img.divC_entry, upsample, colImg_rows, colImg_cols, colImg_entry]
    rw [SubSamplingLayer.get_output_img_size]
    rw [hratio1, hratio2]

/-- Witness for C3: scale-2 pooling on a 2×2 input, batch 1; the single
output delta 8 is spread uniformly over the 2×2 block divided by 4, so the
propagated error at pixel (1,1) is 2, obtained through the theorem. -/
theorem C3_subsampling_backPropagate_witness :
    (((⟨1, 1, 2, (2, 2)⟩ : SubSamplingLayer).backPropagate
        [(⟨1, 1, fun _ _ => 8⟩ : Img)] [] [] 1).2.getD 0 (zeroImg 0 0)).entry
      (1 * 2 + 1) 0 = 2 := by
  have h := C3_subsampling_backPropagate ⟨1, 1, 2, (2, 2)⟩
    [(⟨1, 1, fun _ _ => 8⟩ : Img)] [] [] 1 (by decide) (by decide) (by decide)
    (by decide) (by decide) (by decide)
    (by intro g hg; simp only [List.mem_singleton] at hg; subst hg; rfl)
  have he := (h.2.2 0 (by decide)).2.2 1 (by decide) 1 (by decide) 0 (by decide)
  rw [he]
  norm_num

/-- DNN::adjustLearningRate (dnn source lines 323-339): the process-wide
static phase counter paired with the config's learning rate; the step checks
the six phase-indexed threshold disjuncts of the original and on success
multiplies the rate by 0.9 and increments the phase. -/
def adjustLearningRate (st : ℕ × ℚ) (trainAcc : ℚ) : ℕ × ℚ :=
  if (trainAcc > 4/5 ∧ st.1 = 0) ∨ (trainAcc > 17/20 ∧ st.1 = 1) ∨
     (trainAcc > 9/10 ∧ st.1 = 2) ∨ (trainAcc > 23/25 ∧ st.1 = 3) ∨
     (trainAcc > 19/20 ∧ st.1 = 4) ∨ (trainAcc > 97/100 ∧ st.1 = 5) then
    (st.1 + 1, st.2 * (9/10))
  else st

/-- A sequence of adjustLearningRate calls, threading the static phase and
the learning rate through. -/
def runAdjust (st : ℕ × ℚ) (accs : List ℚ) : ℕ × ℚ :=
  accs.foldl adjustLearningRate st

/-- The ascending threshold sequence {0.80, 0.85, 0.90, 0.92, 0.95, 0.97}. -/
def lrThresholds : List ℚ := [4/5, 17/20, 9/10, 23/25, 19/20, 97/100]

/-- Claim C5 as stated: across any call sequence started at phase 0, the
learning rate ends up multiplied by 0.9 exactly once for each threshold that
the accuracy argument crossed at some call — i.e., once per crossed
threshold, at its first crossing. -/
def C5claimed : Prop :=
  ∀ (accs : List ℚ) (lr0 : ℚ),
    (runAdjust (0, lr0) accs).2
      = lr0 * (9/10) ^ (lrThresholds.filter (fun t => accs.any (fun a => t < a))).length

/-- Counterexample to C5 as stated: a single call with accuracy 0.99 crosses
all six thresholds for the first time, but the schedule multiplies the rate
by 0.9 only once (phase advances by one per call), not six times. -/
theorem C5_claim_false : ¬ C5claimed := by
  intro h
  have h1 := h [99/100] 1
  have h2 : (runAdjust (0, 1) [99/100]).2 = 9/10 := by
    norm_num [runAdjust, adjustLearningRate]
  have h3 : (lrThresholds.filter (fun t => ([(99:ℚ)/100]).any (fun a => t < a))).length
      = 6 := by norm_num [lrThresholds, List.filter]
  rw [h2, h3] at h1
  norm_num at h1

/-- Claim C5 amended: each call multiplies the learning rate by 0.9 exactly
when the phase counter p is below 6 and the accuracy exceeds the p-th
threshold, and then increments the phase; consequently, across any call
sequence the phase never decreases, never exceeds max 6 p, and the final rate
is the initial rate times 0.9 to the number of phases advanced — one
multiplication per threshold index, never re-triggered. -/
theorem C5_adjust_schedule :
    (∀ (st : ℕ × ℚ) (a : ℚ),
      adjustLearningRate st a
        = if st.1 < 6 ∧ lrThresholds.getD st.1 0 < a then (st.1 + 1, st.2 * (9/10))
          else st) ∧
    (∀ (accs : List ℚ) (p : ℕ) (lr : ℚ),
      p ≤ (runAdjust (p, lr) accs).1 ∧
      (runAdjust (p, lr) accs).1 ≤ max 6 p ∧
      (runAdjust (p, lr) accs).2 = lr * (9/10) ^ ((runAdjust (p, lr) accs).1 - p)) := by
  have hiff : ∀ (p : ℕ) (a : ℚ),
      ((a > 4/5 ∧ p = 0) ∨ (a > 17/20 ∧ p = 1) ∨ (a > 9/10 ∧ p = 2) ∨
        (a > 23/25 ∧ p = 3) ∨ (a > 19/20 ∧ p = 4) ∨ (a > 97/100 ∧ p = 5))
        ↔ (p < 6 ∧ lrThresholds.getD p 0 < a) := by
    intro p a
    constructor
    · rintro (⟨ha, hp⟩ | ⟨ha, hp⟩ | ⟨ha, hp⟩ | ⟨ha, hp⟩ | ⟨ha, hp⟩ | ⟨ha, hp⟩) <;>
        subst hp <;> exact ⟨by omega, by simpa [lrThresholds] using ha⟩
    · rintro ⟨hp, ha⟩
      interval_cases p <;> simp [lrThresholds] at ha ⊢ <;> exact ha
  have hstep : ∀ (p : ℕ) (lr : ℚ) (a : ℚ),
      adjustLearningRate (p, lr) a
        = if p < 6 ∧ lrThresholds.getD p 0 < a then (p + 1, lr * (9/10)) else (p, lr) := by
    intro p lr a
    by_cases hc : p < 6 ∧ lrThresholds.getD p 0 < a
    · rw [if_pos hc]
      exact if_pos ((hiff p a).mpr hc)
    · rw [if_neg hc]
      exact if_neg (fun hd => hc ((hiff p a).mp hd))
  refine ⟨fun st a => by obtain ⟨p, lr⟩ := st; exact hstep p lr a, ?_⟩
  intro accs
  induction accs with
  | nil =>
      intro p lr
      refine ⟨le_refl p, le_max_right 6 p, ?_⟩
      simp [runAdjust]
  | cons a as ih =>
      intro p lr
      have hrun : runAdjust (p, lr) (a :: as)
          = runAdjust (adjustLearningRate (p, lr) a) as := rfl
      rw [hrun, hstep p lr a]
      by_cases hc : p < 6 ∧ lrThresholds.getD p 0 < a
      · rw [if_pos hc]
        obtain ⟨h1, h2, h3⟩ := ih (p + 1) (lr * (9/10))
        refine ⟨by omega, by omega, ?_⟩
        rw [h3]
        have : (runAdjust (p + 1, lr * (9/10)) as).1 - p
            = ((runAdjust (p + 1, lr * (9/10)) as).1 - (p + 1)) + 1 := by omega
        rw [this, pow_succ]
        ring
      · rw [if_neg hc]
        exact ih p lr

/-- A 2D device matrix over ℝ, used where a claim depends on the actual
value of the sigmoid nonlinearity. -/
structure RImg where
  rows : ℕ
  cols : ℕ
  entry : ℕ → ℕ → ℝ

/-- The logistic sigmoid 1/(1+e^(-x)) computed by func::sigmoid of the
device_math substrate. -/
noncomputable def sigmoidR (x : ℝ) : ℝ := 1 / (1 + Real.exp (-x))

/-- ext::softmax (feature-transform header, lines 106-118): the body is a
`TODO / Do the softmax` stub that applies func::sigmoid elementwise to every
entry — no per-column normalization is performed. -/
noncomputable def ext_softmax (x : RImg) : RImg :=
  ⟨x.rows, x.cols, fun p q => sigmoidR (x.entry p q)⟩

/-- Claim C4 (code bug): the final Softmax layer is supposed to normalize
each sample's column to sum 1, but ext::softmax, as implemented, applies
elementwise sigmoid (its body is an explicit TODO stub).  On the input column
(1, 1) the output column sums to 2·σ(1) = 2/(1+e⁻¹) > 1, so the column does
not sum to 1. -/
theorem C4_softmax_stub_not_normalized :
    (∑ p ∈ Finset.range 2, (ext_softmax ⟨2, 1, fun _ _ => 1⟩).entry p 0) ≠ 1 := by
  have hexp : Real.exp (-1) < 1 := by
    have h := Real.exp_lt_exp.mpr (by norm_num : (-1 : ℝ) < 0)
    simp only [Real.exp_zero] at h
    exact h
  have hpos : (0 : ℝ) < 1 + Real.exp (-1) := by positivity
  have hs : (1 : ℝ) / 2 < sigmoidR 1 := by
    rw [sigmoidR]
    rw [div_lt_div_iff₀ (by norm_num) hpos]
    nlinarith
  have hsum : (∑ p ∈ Finset.range 2, (ext_softmax ⟨2, 1, fun _ _ => 1⟩).entry p 0)
      = sigmoidR 1 + sigmoidR 1 := by
    simp [ext_softmax, Finset.sum_range_succ]
    ring
  rw [hsum]
  intro hcontra
  nlinarith

/-- The split utility (utility header, not under src/): cut a character list
at every occurrence of the delimiter. -/
def splitAux (d : Char) : List Char → List Char → List (List Char)
  | [], acc => [acc.reverse]
  | c :: cs, acc =>
      if c = d then acc.reverse :: splitAux d cs [] else splitAux d cs (c :: acc)

def split (s : List Char) (d : Char) : List (List Char) := splitAux d s []

/-- str2int (utility header, not under src/), with atoi semantics: the value
of the longest leading run of decimal digits, 0 when there is none. -/
def str2intAux : List Char → ℕ → ℕ
  | [], acc => acc
  | c :: cs, acc => if c.isDigit then str2intAux cs (acc * 10 + (c.toNat - 48)) else acc

def str2int (s : List Char) : ℕ := str2intAux s 0

/-- A constructed MIMOFeatureTransform: convolutional or sub-sampling. -/
inductive CNNLayer where
  | conv (L : ConvolutionalLayer)
  | sub (L : SubSamplingLayer)

def CNNLayer.outSize : CNNLayer → ℕ × ℕ
  | .conv L => L.get_output_img_size
  | .sub L => L.get_output_img_size

def CNNLayer.inSize : CNNLayer → ℕ × ℕ
  | .conv L => L.input_img_size
  | .sub L => L.input_img_size

def CNNLayer.numIn : CNNLayer → ℕ
  | .conv L => L.nInputs
  | .sub L => L.nInputs

def CNNLayer.numOut : CNNLayer → ℕ
  | .conv L => L.nOutputs
  | .sub L => L.nOutputs

/-- Outcomes of CNN::init other than success: the configuration error that
names the offending token (cnn.cu lines 116-118), the out-of-bounds vector
access reached when a token containing 'x' splits into fewer than three
pieces (undefined behavior in the original), and the constructor assert
(cnn.cu line 170). -/
inductive InitError where
  | badToken (t : List Char)
  | dimsOutOfRange
  | assertFailed
deriving DecidableEq

/-- CNN::init (cnn.cu lines 78-121) on the already-split token list, threading
the running input-map count, image size and the static kernel-file counter.
A token containing 's' anywhere builds a sub-sampling layer with scale
str2int(token minus last char); otherwise a token containing 'x' is split on
'x' into (output maps, kernel width, kernel height) and builds a
convolutional layer; otherwise the configuration error names the token.
The ConvolutionalLayer constructor (cnn.cu lines 165-188) sets every kernel
by loading the file "k<counter>.mat" — the commented-out randn(h, w) is dead
code — modelled by the environment env mapping counter values to matrices;
h and w feed only the assert.  Biases start at 0. -/
def initLayers (env : ℕ → Img) :
    List (List Char) → ℕ → ℕ × ℕ → ℕ → Except InitError (List CNNLayer)
  | [], _, _, _ => .ok []
  | t :: ts, nIn, sz, ctr =>
    if 's' ∈ t then
      let scale := str2int t.dropLast
      let L : SubSamplingLayer := ⟨nIn, nIn, scale, sz⟩
      match initLayers env ts nIn L.get_output_img_size ctr with
      | .error e => .error e
      | .ok ls => .ok (CNNLayer.sub L :: ls)
    else if 'x' ∈ t then
      let dims := split t 'x'
      if dims.length < 3 then .error .dimsOutOfRange
      else
        let m := str2int (dims.getD 0 [])
        let kw := str2int (dims.getD 1 [])
        let kh := str2int (dims.getD 2 [])
        if nIn = 0 ∨ m = 0 ∨ kh = 0 ∨ kw = 0 then .error .assertFailed
        else
          let L : ConvolutionalLayer :=
            ⟨nIn, m, fun i j => env (ctr + i * m + j + 1), fun _ => 0, sz⟩
          match initLayers env ts m L.get_output_img_size (ctr + nIn * m) with
          | .error e => .error e
          | .ok ls => .ok (CNNLayer.conv L :: ls)
    else .error (.badToken t)

/-- Does the token match the sub-sampling form \d+s of the spec? -/
def matchSub (t : List Char) : Bool :=
  (!t.dropLast.isEmpty && t.dropLast.all Char.isDigit) && (t.getLast? == some 's')

/-- Does the token match the convolutional form \d+x\d+x\d+ of the spec? -/
def matchConvTok (t : List Char) : Bool :=
  match split t 'x' with
  | [a, b, c] => (!a.isEmpty && a.all Char.isDigit) && (!b.isEmpty && b.all Char.isDigit)
      && (!c.isEmpty && c.all Char.isDigit)
  | _ => false

/-- Counterexample to C8 as stated: the token "5stuff" matches neither \d+s
nor \d+x\d+x\d+, yet init raises no configuration error — because it checks
only whether the token CONTAINS 's', it happily builds a scale-5 sub-sampling
layer from it. -/
theorem C8_claim_false :
    matchSub ['5', 's', 't', 'u', 'f', 'f'] = false ∧
    matchConvTok ['5', 's', 't', 'u', 'f', 'f'] = false ∧
    initLayers (fun _ => zeroImg 1 1) [['5', 's', 't', 'u', 'f', 'f']] 1 (8, 8) 0
      = Except.ok [CNNLayer.sub ⟨1, 1, 5, (8, 8)⟩] :=
  ⟨rfl, rfl, rfl⟩

/-- The layers produced by init are chained: each layer consumes the running
image size and input-map count and hands its output geometry to the next. -/
def chainedLayers : ℕ × ℕ → ℕ → List CNNLayer → Prop
  | _, _, [] => True
  | sz, nIn, L :: ls =>
      L.inSize = sz ∧ L.numIn = nIn ∧ chainedLayers L.outSize L.numOut ls

/-- A token init accepts cleanly: if it contains 's', a positive parsed scale
(zero scale makes the original divide by zero); otherwise it must contain
'x', split into at least three pieces, and parse three positive numbers
(otherwise the original indexes past the dims vector or trips the assert). -/
def tokWF (t : List Char) : Prop :=
  if 's' ∈ t then 0 < str2int t.dropLast
  else 'x' ∈ t ∧ 3 ≤ (split t 'x').length ∧
    0 < str2int ((split t 'x').getD 0 []) ∧
    0 < str2int ((split t 'x').getD 1 []) ∧
    0 < str2int ((split t 'x').getD 2 [])

/-- Claim C8 amended: init classifies each '-'-separated token by content,
not by the spec's regexes — a token containing 's' anywhere is sub-sampling,
else a token containing 'x' is convolutional, and only a token containing
neither raises the configuration error, which names the FIRST such token;
accepted tokens construct layers sequentially, threading the running image
size and input-map count into each next layer. -/
theorem C8_init_classification (env : ℕ → Img) :
    (∀ (tokens : List (List Char)) (nIn : ℕ) (sz : ℕ × ℕ) (ctr : ℕ),
      0 < nIn → (∀ t ∈ tokens, tokWF t) →
      ∃ ls, initLayers env tokens nIn sz ctr = .ok ls ∧
        ls.length = tokens.length ∧ chainedLayers sz nIn ls) ∧
    (∀ (pre : List (List Char)) (t : List Char) (rest : List (List Char))
        (nIn : ℕ) (sz : ℕ × ℕ) (ctr : ℕ),
      0 < nIn → (∀ u ∈ pre, tokWF u) → 's' ∉ t → 'x' ∉ t →
      initLayers env (pre ++ t :: rest) nIn sz ctr
        = .error (InitError.badToken t)) := by
  constructor
  · intro tokens
    induction tokens with
    | nil =>
        intro nIn sz ctr hn hwf
        exact ⟨[], rfl, rfl, trivial⟩
    | cons t ts ih =>
        intro nIn sz ctr hn hwf
        have hwt := hwf t (by simp)
        have hwts : ∀ u ∈ ts, tokWF u := fun u hu => hwf u (by simp [hu])
        by_cases hs : 's' ∈ t
        · rw [tokWF, if_pos hs] at hwt
          obtain ⟨ls, hok, hlen, hch⟩ := ih nIn
            ((⟨nIn, nIn, str2int t.dropLast, sz⟩ : SubSamplingLayer).get_output_img_size)
            ctr hn hwts
          refine ⟨CNNLayer.sub ⟨nIn, nIn, str2int t.dropLast, sz⟩ :: ls, ?_, ?_, ?_⟩
          · simp only [initLayers, if_pos hs]
            rw [hok]
          · simp [hlen]
          · exact ⟨rfl, rfl, hch⟩
        · rw [tokWF, if_neg hs] at hwt
          obtain ⟨hx, h3, hm, hkw, hkh⟩ := hwt
          obtain ⟨ls, hok, hlen, hch⟩ := ih (str2int ((split t 'x').getD 0 []))
            ((⟨nIn, str2int ((split t 'x').getD 0 []),
              fun i j => env (ctr + i * str2int ((split t 'x').getD 0 []) + j + 1),
              fun _ => 0, sz⟩ : ConvolutionalLayer).get_output_img_size)
            (ctr + nIn * str2int ((split t 'x').getD 0 [])) hm hwts
          refine ⟨CNNLayer.conv ⟨nIn, str2int ((split t 'x').getD 0 []),
            fun i j => env (ctr + i * str2int ((split t 'x').getD 0 []) + j + 1),
            fun _ => 0, sz⟩ :: ls, ?_, ?_, ?_⟩
          · simp only [initLayers, if_neg hs, if_pos hx]
            rw [if_neg (by omega : ¬ (split t 'x').length < 3),
              if_neg (by omega :
                ¬ (nIn = 0 ∨ str2int ((split t 'x').getD 0 []) = 0 ∨
                  str2int ((split t 'x').getD 2 []) = 0 ∨
                  str2int ((split t 'x').getD 1 []) = 0))]
            rw [hok]
          · simp [hlen]
          · exact ⟨rfl, rfl, hch⟩
  · intro pre
    induction pre with
    | nil =>
        intro t rest nIn sz ctr hn hwf hs hx
        simp only [List.nil_append, initLayers, if_neg hs, if_neg hx]
    | cons u pre' ih =>
        intro t rest nIn sz ctr hn hwf hs hx
        have hwu := hwf u (by simp)
        have hwf' : ∀ v ∈ pre', tokWF v := fun v hv => hwf v (by simp [hv])
        have happ : (u :: pre') ++ t :: rest = u :: (pre' ++ t :: rest) := rfl
        rw [happ]
        by_cases hus : 's' ∈ u
        · rw [tokWF, if_pos hus] at hwu
          have hrec := ih t rest nIn
            ((⟨nIn, nIn, str2int u.dropLast, sz⟩ : SubSamplingLayer).get_output_img_size)
            ctr hn hwf' hs hx
          simp only [initLayers, if_pos hus]
          rw [hrec]
        · rw [tokWF, if_neg hus] at hwu
          obtain ⟨hux, h3, hm, hkw, hkh⟩ := hwu
          have hrec := ih t rest (str2int ((split u 'x').getD 0 []))
            ((⟨nIn, str2int ((split u 'x').getD 0 []),
              fun i j => env (ctr + i * str2int ((split u 'x').getD 0 []) + j + 1),
              fun _ => 0, sz⟩ : ConvolutionalLayer).get_output_img_size)
            (ctr + nIn * str2int ((split u 'x').getD 0 [])) hm hwf' hs hx
          simp only [initLayers, if_neg hus, if_pos hux]
          rw [if_neg (by omega : ¬ (split u 'x').length < 3),
            if_neg (by omega :
              ¬ (nIn = 0 ∨ str2int ((split u 'x').getD 0 []) = 0 ∨
                str2int ((split u 'x').getD 2 []) = 0 ∨
                str2int ((split u 'x').getD 1 []) = 0))]
          rw [hrec]

instance tokWF_decidable (t : List Char) : Decidable (tokWF t) := by
  unfold tokWF
  infer_instance

/-- Witness for C8: the structure "2s-3x2x2" (both token shapes) initializes
two chained layers, and the lone garbage token "ab" produces the
configuration error naming it — both through the theorem. -/
theorem C8_init_classification_witness :
    ((0 < 1) ∧ (∀ t ∈ [['2', 's'], ['3', 'x', '2', 'x', '2']], tokWF t)) ∧
    (∃ ls, initLayers (fun _ => zeroImg 2 2) [['2', 's'], ['3', 'x', '2', 'x', '2']]
        1 (8, 8) 0 = .ok ls ∧ ls.length = 2 ∧ chainedLayers (8, 8) 1 ls) ∧
    initLayers (fun _ => zeroImg 2 2) [['a', 'b']] 1 (8, 8) 0
      = .error (InitError.badToken ['a', 'b']) :=
  ⟨⟨by decide, by decide⟩,
   (C8_init_classification (fun _ => zeroImg 2 2)).1
     [['2', 's'], ['3', 'x', '2', 'x', '2']] 1 (8, 8) 0 (by decide) (by decide),
   (C8_init_classification (fun _ => zeroImg 2 2)).2
     [] ['a', 'b'] [] 1 (8, 8) 0 (by decide) (by decide) (by decide) (by decide)⟩

/-- Size of the first constructed layer's kernel (rows, cols), when init
succeeded and the first layer is convolutional. -/
def firstKernelSize : Except InitError (List CNNLayer) → ℕ × ℕ
  | .ok (CNNLayer.conv L :: _) => ((L.kernels 0 0).rows, (L.kernels 0 0).cols)
  | _ => (0, 0)

/-- Output image size of the first constructed layer, when init succeeded. -/
def firstOutSize : Except InitError (List CNNLayer) → ℕ × ℕ
  | .ok (L :: _) => L.outSize
  | _ => (0, 0)

/-- Claim C7 (code bug): for the token "2x3x5" on a 10×10 input, the claim
(and the constructor's own printf) promises 3×5 kernels and an 8×6 output,
but the constructor loads each kernel from the file "k<counter>.mat" — here a
4×4 matrix — so the kernels are 4×4 and the output image size is 7×7.
(Besides the file loading, init parses the token's second component as the
kernel WIDTH and the third as the HEIGHT, the reverse of NxHxW.) -/
theorem C7_kernels_loaded_from_files :
    firstKernelSize (initLayers (fun _ => ⟨4, 4, fun _ _ => 1⟩)
        [['2', 'x', '3', 'x', '5']] 1 (10, 10) 0) = (4, 4) ∧
    ((4, 4) : ℕ × ℕ) ≠ (3, 5) ∧
    firstOutSize (initLayers (fun _ => ⟨4, 4, fun _ _ => 1⟩)
        [['2', 'x', '3', 'x', '5']] 1 (10, 10) 0) = (7, 7) ∧
    ((7, 7) : ℕ × ℕ) ≠ (10 - 3 + 1, 10 - 5 + 1) :=
  ⟨rfl, by decide, rfl, by decide⟩

/-- A CNN: the ordered pipeline of constructed MIMO layers. -/
structure CNNModel where
  transforms : List CNNLayer

/-- Errors a CNN method could signal (none of the stubs ever does). -/
inductive CNNErr where
  | notSupported

/-- CNN::read (cnn.cu lines 123-126): the body is only a TODO comment — the
call returns with the model untouched and no error signalled. -/
def cnnRead (c : CNNModel) (fn : List Char) : Except CNNErr CNNModel := .ok c

/-- CNN::save (cnn.cu lines 128-130): the body is only a TODO comment — the
call returns having written nothing and signalling no error. -/
def cnnSave (c : CNNModel) (fn : List Char) : Except CNNErr Unit := .ok ()

/-- CNN::feedBackward (cnn.cu lines 74-76): the body is only a TODO comment —
the call returns with the error matrix untouched and no error signalled. -/
def cnnFeedBackward (c : CNNModel) (error delta : Img) : Except CNNErr Img := .ok error

/-- Counterexample to C9 as stated: all three operations return successfully
as silently-succeeding no-ops on a concrete model — none of them signals
"not yet supported". -/
theorem C9_claim_false :
    cnnRead ⟨[]⟩ ['m'] = .ok ⟨[]⟩ ∧
    cnnSave ⟨[]⟩ ['m'] = .ok () ∧
    cnnFeedBackward ⟨[]⟩ (zeroImg 1 1) (zeroImg 1 1) = .ok (zeroImg 1 1) :=
  ⟨rfl, rfl, rfl⟩

/-- Claim C9 amended: CNN::read, CNN::save and CNN::feedBackward are
unimplemented TODO stubs that always return successfully without doing
anything — silently-succeeding no-ops that signal nothing. -/
theorem C9_stubs_are_noops :
    ∀ (c : CNNModel) (fn : List Char) (e d : Img),
      cnnRead c fn = .ok c ∧ cnnSave c fn = .ok () ∧ cnnFeedBackward c e d = .ok e :=
  fun _ _ _ _ => ⟨rfl, rfl, rfl⟩

/-- The DNN Config (hyperparameters: learning rate and weight-init
variance). -/
structure Config where
  learningRate : ℚ
  variance : ℚ

/-- A DNN with explicit ownership: the heap of weight matrices is a store,
and the model owns one address per FeatureTransform layer, plus its Config. -/
structure DNNH where
  transforms : List ℕ
  config : Config

/-- The DNN copy constructor (dnn source lines 168-172): allocate a
same-length transform list, clone() each source layer — modelled from the
spec as a deep copy: a fresh address holding a copy of the pointed-to
matrix — while the member-initializer list value-initializes _config()
(dflt is whatever Config's default constructor produces, a value the sources
do not pin down), instead of copying source._config. -/
def dnnCopy (dflt : Config) (store : List Img) (d : DNNH) : List Img × DNNH :=
  (store ++ d.transforms.map (fun a => store.getD a (zeroImg 0 0)),
   ⟨(List.range d.transforms.length).map (fun i => store.length + i), dflt⟩)

/-- Claim C10: copy-constructing a DNN deep-copies every layer — the copy
owns fresh addresses holding equal matrices, so writing through either
model's addresses never changes what the other reads — while the copy's
Config is the default-initialized one, not the source's: the source's
learning rate and variance are not carried over. -/
theorem C10_copy_semantics (dflt : Config) (store : List Img) (d : DNNH)
    (hv : ∀ a ∈ d.transforms, a < store.length) :
    ((dnnCopy dflt store d).2.transforms.length = d.transforms.length) ∧
    (∀ i < d.transforms.length,
      (dnnCopy dflt store d).1.getD ((dnnCopy dflt store d).2.transforms.getD i 0)
          (zeroImg 0 0)
        = store.getD (d.transforms.getD i 0) (zeroImg 0 0)) ∧
    (∀ i < d.transforms.length, ∀ j < d.transforms.length,
      (dnnCopy dflt store d).2.transforms.getD i 0 ≠ d.transforms.getD j 0) ∧
    (∀ i < d.transforms.length, ∀ j < d.transforms.length, ∀ M : Img,
      ((dnnCopy dflt store d).1.set ((dnnCopy dflt store d).2.transforms.getD i 0)
          M).getD (d.transforms.getD j 0) (zeroImg 0 0)
        = store.getD (d.transforms.getD j 0) (zeroImg 0 0)) ∧
    (∀ i < d.transforms.length, ∀ j < d.transforms.length, ∀ M : Img,
      ((dnnCopy dflt store d).1.set (d.transforms.getD j 0) M).getD
          ((dnnCopy dflt store d).2.transforms.getD i 0) (zeroImg 0 0)
        = (dnnCopy dflt store d).1.getD ((dnnCopy dflt store d).2.transforms.getD i 0)
            (zeroImg 0 0)) ∧
    ((dnnCopy dflt store d).2.config = dflt) := by
  have hfst : (dnnCopy dflt store d).1
      = store ++ d.transforms.map (fun a => store.getD a (zeroImg 0 0)) := rfl
  have haddr : ∀ i < d.transforms.length,
      (dnnCopy dflt store d).2.transforms.getD i 0 = store.length + i := by
    intro i hi
    exact getD_map_range _ 0 hi
  have hsrc : ∀ j < d.transforms.length, d.transforms.getD j 0 < store.length := by
    intro j hj
    exact hv _ (getD_mem_of_lt d.transforms 0 hj)
  have hread : ∀ i < d.transforms.length,
      (dnnCopy dflt store d).1.getD (store.length + i) (zeroImg 0 0)
        = store.getD (d.transforms.getD i 0) (zeroImg 0 0) := by
    intro i hi
    rw [hfst]
    rw [List.getD_eq_getElem?_getD, List.getElem?_append_right (by omega),
      Nat.add_sub_cancel_left, List.getElem?_map, List.getElem?_eq_getElem hi,
      List.getD_eq_getElem d.transforms 0 hi]
    rfl
  have hlen : (dnnCopy dflt store d).2.transforms.length = d.transforms.length := by
    show ((List.range d.transforms.length).map (fun i => store.length + i)).length
        = d.transforms.length
    simp
  refine ⟨hlen, ?_, ?_, ?_, ?_, rfl⟩
  · intro i hi
    rw [haddr i hi]
    exact hread i hi
  · intro i hi j hj
    have h1 := hsrc j hj
    rw [haddr i hi]
    simp only [List.getD_eq_getElem?_getD] at h1 ⊢
    omega
  · intro i hi j hj M
    have hj' := hsrc j hj
    rw [haddr i hi, hfst]
    simp only [List.getD_eq_getElem?_getD] at hj' ⊢
    rw [List.getElem?_set_ne (by omega), List.getElem?_append_left (by omega)]
  · intro i hi j hj M
    have hj' := hsrc j hj
    rw [haddr i hi]
    simp only [hfst, List.getD_eq_getElem?_getD] at hj' ⊢
    rw [List.getElem?_set_ne (by omega)]

/-- Witness for C10: a one-layer source model owning address 0 in a one-image
store; the copy reads the same matrix entry at its fresh address. -/
theorem C10_copy_semantics_witness :
    (∀ a ∈ [0], a < ([(⟨1, 1, fun _ _ => 7⟩ : Img)] : List Img).length) ∧
    ((dnnCopy ⟨1, 1⟩ [(⟨1, 1, fun _ _ => 7⟩ : Img)] ⟨[0], ⟨5, 9⟩⟩).2.config = ⟨1, 1⟩) :=
  ⟨by decide,
   (C10_copy_semantics ⟨1, 1⟩ [(⟨1, 1, fun _ _ => 7⟩ : Img)] ⟨[0], ⟨5, 9⟩⟩
     (by decide)).2.2.2.2.2⟩

/-- The two FeatureTransform variants the DNN serializer knows: the textual
tags "<sigmoid>" and "<softmax>" written by save and compared by read. -/
inductive TType where
  | sigmoid
  | softmax
deriving DecidableEq

/-- A single-input-single-output FeatureTransform: its variant tag and the
bias-augmented weight matrix W. -/
structure Transform where
  typ : TType
  W : Img

def dTrans : Transform := ⟨TType.sigmoid, zeroImg 0 0⟩

/-- One token of the model file: a layer-type tag, a dimension, or a weight
value (whitespace of the text format is the don't-care part and is not
modelled). -/
inductive Tok where
  | ttag (t : TType)
  | tnat (n : ℕ)
  | tnum (x : ℚ)
deriving DecidableEq

/-- The weight block DNN::save emits for one transform (dnn source lines
279-284): rows 0..rows-2 of W, each row's first cols-1 entries, row-major —
the last column of W is never written. -/
def saveMatrix (t : Transform) : List ℚ :=
  (List.range ((t.W.rows - 1) * (t.W.cols - 1))).map (fun idx =>
    t.W.entry (idx / (t.W.cols - 1)) (idx % (t.W.cols - 1)))

/-- The bias block DNN::save emits (dnn source lines 286-289): the first
cols-1 entries of W's last row. -/
def saveBias (t : Transform) : List ℚ :=
  (List.range (t.W.cols - 1)).map (fun k => t.W.entry (t.W.rows - 1) k)

/-- DNN::save for one transform (dnn source lines 265-292): the type tag,
the header dimensions rows-1 and cols-1, then the weight block and the bias
block. -/
def saveOne (t : Transform) : List Tok :=
  Tok.ttag t.typ :: Tok.tnat (t.W.rows - 1) :: Tok.tnat (t.W.cols - 1) ::
    (saveMatrix t ++ saveBias t).map Tok.tnum

/-- DNN::save (dnn source lines 262-300): every transform in order. -/
def saveDNN (d : List Transform) : List Tok := (d.map saveOne).flatten

/-- Read count consecutive numeric tokens (the fscanf("%f ") loops of
readweight, dnn source lines 218-230). -/
def readNums : ℕ → List Tok → Option (List ℚ × List Tok)
  | 0, ts => some ([], ts)
  | n + 1, Tok.tnum x :: ts =>
      match readNums n ts with
      | none => none
      | some (xs, rest) => some (x :: xs, rest)
  | _ + 1, _ => none

/-- The weight matrix DNN::read rebuilds for one layer (dnn source lines
244-248 together with readweight): a (r+1)×(c+1) buffer whose first c
columns hold the parsed weight rows and the parsed bias row — and whose last
column is never written: it keeps whatever the freshly allocated float buffer
held, modelled by the junkrow function. -/
def reconT (ty : TType) (r c : ℕ) (ms bs : List ℚ) (junkrow : ℕ → ℚ) : Transform :=
  ⟨ty, ⟨r + 1, c + 1, fun p q =>
    if q < c then (if p < r then ms.getD (p * c + q) 0 else bs.getD q 0)
    else junkrow p⟩⟩

/-- DNN::read (dnn source lines 232-260): parse tag and dimensions, read the
weight and bias blocks, rebuild each transform in order until the token
stream is exhausted.  The fuel argument (instantiated with the stream length
by readDNN) only bounds the recursion; each step consumes at least three
tokens. -/
def readAllF (junk : ℕ → ℕ → ℚ) : ℕ → ℕ → List Tok → Option (List Transform)
  | _, _, [] => some []
  | 0, _, _ :: _ => none
  | fuel + 1, idx, Tok.ttag ty :: Tok.tnat r :: Tok.tnat c :: ts =>
      match readNums (r * c) ts with
      | none => none
      | some (ms, ts1) =>
        match readNums c ts1 with
        | none => none
        | some (bs, ts2) =>
          match readAllF junk fuel (idx + 1) ts2 with
          | none => none
          | some l => some (reconT ty r c ms bs (junk idx) :: l)
  | _ + 1, _, _ => none

def readDNN (junk : ℕ → ℕ → ℚ) (toks : List Tok) : Option (List Transform) :=
  readAllF junk toks.length 0 toks

/-- The transforms read back from what save wrote: same tags and geometry,
the serialized entries restored, the unwritten last column filled from the
uninitialized buffer. -/
def reconList (junk : ℕ → ℕ → ℚ) : ℕ → List Transform → List Transform
  | _, [] => []
  | idx, t :: ds =>
      reconT t.typ (t.W.rows - 1) (t.W.cols - 1) (saveMatrix t) (saveBias t) (junk idx)
        :: reconList junk (idx + 1) ds

/-- Modelled from the spec: fin · W (the affine map of §4.1; the
AffineTransform bodies are not under src/). -/
def matMul (A B : Img) : Img :=
  ⟨A.rows, B.cols, fun p q => ∑ r ∈ Finset.range B.rows, A.entry p r * B.entry r q⟩

/-- fillLastColumnWith (feature-transform header lines 132-136): overwrite
the last column. -/
def fillLastColumnWith (A : Img) (v : ℚ) : Img :=
  ⟨A.rows, A.cols, fun p q => if q = A.cols - 1 then v else A.entry p q⟩

/-- Modelled from the spec: one FeatureTransform forward step — activation of
fin · W with the result re-bias-augmented (last column forced to 1); the
activation of each variant is a parameter from the substrate. -/
def tForward (act : TType → ℚ → ℚ) (t : Transform) (fin : Img) : Img :=
  fillLastColumnWith (Img.map (act t.typ) (matMul fin t.W)) 1

/-- DNN::feedForward (dnn source lines 400-416): thread the batch through
every transform, then strip the last (bias) column of the final output. -/
def dnnForward (act : TType → ℚ → ℚ) (d : List Transform) (fin : Img) : Img :=
  let o := d.foldl (fun m t => tForward act t m) fin
  ⟨o.rows, o.cols - 1, o.entry⟩

/-- In-bounds agreement of two matrices: same geometry, equal entries at
every in-bounds position. -/
def inEq (A B : Img) : Prop :=
  A.rows = B.rows ∧ A.cols = B.cols ∧
    ∀ p < B.rows, ∀ q < B.cols, A.entry p q = B.entry p q

/-- Two transforms equal up to the (reserved) last column of W. -/
def almostEq (t' t : Transform) : Prop :=
  t'.typ = t.typ ∧ t'.W.rows = t.W.rows ∧ t'.W.cols = t.W.cols ∧
    ∀ p < t.W.rows, ∀ q, q + 1 < t.W.cols → t'.W.entry p q = t.W.entry p q

/-- The layer geometries compose with the given input width. -/
def dimsChain : List Transform → ℕ → Prop
  | [], _ => True
  | t :: ts, c => c = t.W.rows ∧ dimsChain ts t.W.cols

theorem saveMatrix_length (t : Transform) :
    (saveMatrix t).length = (t.W.rows - 1) * (t.W.cols - 1) := by
  simp [saveMatrix]

theorem saveBias_length (t : Transform) :
    (saveBias t).length = t.W.cols - 1 := by
  simp [saveBias]

theorem readNums_append : ∀ (xs : List ℚ) (rest : List Tok),
    readNums xs.length (xs.map Tok.tnum ++ rest) = some (xs, rest) := by
  intro xs
  induction xs with
  | nil => intro rest; rfl
  | cons x xs ih =>
      intro rest
      show readNums (xs.length + 1) (Tok.tnum x :: (xs.map Tok.tnum ++ rest)) = _
      simp only [readNums, ih rest]

theorem saveDNN_cons (t : Transform) (ds : List Transform) :
    saveDNN (t :: ds)
      = Tok.ttag t.typ :: Tok.tnat (t.W.rows - 1) :: Tok.tnat (t.W.cols - 1) ::
        ((saveMatrix t).map Tok.tnum ++ ((saveBias t).map Tok.tnum ++ saveDNN ds)) := by
  simp [saveDNN, saveOne, List.map_append, List.append_assoc]

theorem readAllF_save (junk : ℕ → ℕ → ℚ) :
    ∀ (d : List Transform) (fuel idx : ℕ), (saveDNN d).length ≤ fuel →
      readAllF junk fuel idx (saveDNN d) = some (reconList junk idx d) := by
  intro d
  induction d with
  | nil =>
      intro fuel idx hf
      cases fuel <;> rfl
  | cons t ds ih =>
      intro fuel idx hf
      rw [saveDNN_cons] at hf ⊢
      cases fuel with
      | zero => simp at hf
      | succ f =>
          have hms : readNums ((t.W.rows - 1) * (t.W.cols - 1))
              ((saveMatrix t).map Tok.tnum ++ ((saveBias t).map Tok.tnum ++ saveDNN ds))
              = some (saveMatrix t, (saveBias t).map Tok.tnum ++ saveDNN ds) := by
            rw [← saveMatrix_length t]
            exact readNums_append _ _
          have hbs : readNums (t.W.cols - 1) ((saveBias t).map Tok.tnum ++ saveDNN ds)
              = some (saveBias t, saveDNN ds) := by
            rw [← saveBias_length t]
            exact readNums_append _ _
          have hrec : readAllF junk f (idx + 1) (saveDNN ds)
              = some (reconList junk (idx + 1) ds) := by
            refine ih f (idx + 1) ?_
            simp at hf
            omega
          simp only [readAllF, hms, hbs, hrec, reconList]

theorem reconList_getD (junk : ℕ → ℕ → ℚ) :
    ∀ (d : List Transform) (idx i : ℕ), i < d.length →
      (reconList junk idx d).getD i dTrans
        = reconT (d.getD i dTrans).typ ((d.getD i dTrans).W.rows - 1)
            ((d.getD i dTrans).W.cols - 1) (saveMatrix (d.getD i dTrans))
            (saveBias (d.getD i dTrans)) (junk (idx + i)) := by
  intro d
  induction d with
  | nil => intro idx i hi; simp at hi
  | cons t ds ih =>
      intro idx i hi
      cases i with
      | zero => simp [reconList]
      | succ i' =>
          have hi' : i' < ds.length := by simpa using hi
          have heq : idx + 1 + i' = idx + (i' + 1) := by omega
          have hrec := ih (idx + 1) i' hi'
          rw [heq] at hrec
          simp only [reconList, List.getD_cons_succ, hrec]

theorem reconT_lastcol (t : Transform) (junkrow : ℕ → ℚ) (p : ℕ) :
    (reconT t.typ (t.W.rows - 1) (t.W.cols - 1) (saveMatrix t) (saveBias t)
      junkrow).W.entry p (t.W.cols - 1) = junkrow p := by
  simp [reconT]

theorem reconT_almostEq (t : Transform) (junkrow : ℕ → ℚ)
    (h1 : 1 ≤ t.W.rows) (h2 : 1 ≤ t.W.cols) :
    almostEq (reconT t.typ (t.W.rows - 1) (t.W.cols - 1) (saveMatrix t) (saveBias t)
      junkrow) t := by
  refine ⟨rfl, by simp [reconT]; omega, by simp [reconT]; omega, ?_⟩
  intro p hp q hq
  have hc : 0 < t.W.cols - 1 := by omega
  simp only [reconT]
  rw [if_pos (by omega : q < t.W.cols - 1)]
  by_cases hpr : p < t.W.rows - 1
  · rw [if_pos hpr]
    have hidx : p * (t.W.cols - 1) + q < (t.W.rows - 1) * (t.W.cols - 1) := by
      have h3 : p + 1 ≤ t.W.rows - 1 := hpr
      calc p * (t.W.cols - 1) + q < p * (t.W.cols - 1) + (t.W.cols - 1) := by omega
        _ = (p + 1) * (t.W.cols - 1) := by ring
        _ ≤ (t.W.rows - 1) * (t.W.cols - 1) := Nat.mul_le_mul_right _ h3
    show (saveMatrix t).getD (p * (t.W.cols - 1) + q) 0 = t.W.entry p q
    rw [saveMatrix, getD_map_range _ 0 hidx,
      flat_div (R := t.W.cols - 1) p (by omega), flat_mod (R := t.W.cols - 1) p (by omega)]
  · rw [if_neg hpr]
    have hpe : p = t.W.rows - 1 := by omega
    show (saveBias t).getD q 0 = t.W.entry p q
    rw [saveBias, getD_map_range _ 0 (by omega : q < t.W.cols - 1), hpe]

theorem tForward_inEq (act : TType → ℚ → ℚ) (t' t : Transform) (A B : Img)
    (hT : almostEq t' t) (hAB : inEq A B) (hcomp : B.cols = t.W.rows) :
    inEq (tForward act t' A) (tForward act t B) := by
  obtain ⟨hty, hrw, hcw, hent⟩ := hT
  obtain ⟨hr, hc, he⟩ := hAB
  refine ⟨by simp [tForward, fillLastColumnWith, matMul, hr], ?_, ?_⟩
  · show t'.W.cols = t.W.cols
    exact hcw
  · intro p hp q hq
    show (if q = (matMul A t'.W).cols - 1 then 1
          else act t'.typ ((matMul A t'.W).entry p q))
        = (if q = (matMul B t.W).cols - 1 then 1
          else act t.typ ((matMul B t.W).entry p q))
    have hcols' : (matMul A t'.W).cols = (matMul B t.W).cols := by
      simp [matMul, hcw]
    rw [hcols']
    by_cases hlast : q = (matMul B t.W).cols - 1
    · rw [if_pos hlast, if_pos hlast]
    · rw [if_neg hlast, if_neg hlast, hty]
      congr 1
      show ∑ r ∈ Finset.range t'.W.rows, A.entry p r * t'.W.entry r q
          = ∑ r ∈ Finset.range t.W.rows, B.entry p r * t.W.entry r q
      rw [hrw]
      refine Finset.sum_congr rfl ?_
      intro r hr'
      have hr'' : r < t.W.rows := Finset.mem_range.mp hr'
      have hq' : q < t.W.cols := hq
      have hq2 : q + 1 < t.W.cols := by
        have hlast' : q ≠ t.W.cols - 1 := by
          intro hcontra
          exact hlast (by simpa [matMul] using hcontra)
        omega
      rw [he p hp r (by omega), hent r (by omega) q hq2]

theorem foldl_tForward_inEq (act : TType → ℚ → ℚ) :
    ∀ (d d' : List Transform), List.Forall₂ almostEq d' d →
      ∀ (A B : Img), inEq A B → dimsChain d B.cols →
      inEq (d'.foldl (fun m t => tForward act t m) A)
        (d.foldl (fun m t => tForward act t m) B) := by
  intro d d' hall
  induction hall with
  | nil => intro A B hAB _; exact hAB
  | cons h hs ih =>
      intro A B hAB hchain
      obtain ⟨hcomp, hchain'⟩ := hchain
      simp only [List.foldl_cons]
      refine ih _ _ (tForward_inEq act _ _ A B h hAB hcomp) ?_
      show dimsChain _ (tForward act _ B).cols
      exact hchain'

theorem forall2_reconList (junk : ℕ → ℕ → ℚ) :
    ∀ (d : List Transform) (idx : ℕ), (∀ t ∈ d, 1 ≤ t.W.rows ∧ 1 ≤ t.W.cols) →
      List.Forall₂ almostEq (reconList junk idx d) d := by
  intro d
  induction d with
  | nil => intro idx _; exact List.Forall₂.nil
  | cons t ds ih =>
      intro idx hwf
      have hwt := hwf t (by simp)
      exact List.Forall₂.cons (reconT_almostEq t (junk idx) hwt.1 hwt.2)
        (ih (idx + 1) (fun u hu => hwf u (by simp [hu])))

theorem reconList_length (junk : ℕ → ℕ → ℚ) :
    ∀ (d : List Transform) (idx : ℕ), (reconList junk idx d).length = d.length := by
  intro d
  induction d with
  | nil => intro idx; rfl
  | cons t ds ih => intro idx; simp [reconList, ih]

theorem inEq_refl (A : Img) : inEq A A := ⟨rfl, rfl, fun _ _ _ _ => rfl⟩

/-- Claim C6 amended: save followed by read reconstructs a model with the
same layer types, the same geometry, and the same weight entries EXCEPT the
last column of each W, which save never writes and read leaves to the
freshly allocated (uninitialized) buffer, modelled by junk; since that
reserved column never influences the forward pass (it is overwritten by the
bias-augmentation fill and stripped at the output), the reconstructed
model's forward output equals the original's on every input batch of
compatible geometry. -/
theorem C6_save_read_roundtrip (d : List Transform) (junk : ℕ → ℕ → ℚ)
    (hwf : ∀ t ∈ d, 1 ≤ t.W.rows ∧ 1 ≤ t.W.cols) :
    ∃ l, readDNN junk (saveDNN d) = some l ∧ l.length = d.length ∧
      (∀ i < d.length,
        (l.getD i dTrans).typ = (d.getD i dTrans).typ ∧
        (l.getD i dTrans).W.rows = (d.getD i dTrans).W.rows ∧
        (l.getD i dTrans).W.cols = (d.getD i dTrans).W.cols ∧
        (∀ p < (d.getD i dTrans).W.rows, ∀ q, q + 1 < (d.getD i dTrans).W.cols →
          (l.getD i dTrans).W.entry p q = (d.getD i dTrans).W.entry p q) ∧
        (∀ p : ℕ, (l.getD i dTrans).W.entry p ((d.getD i dTrans).W.cols - 1)
          = junk i p)) ∧
      (∀ (act : TType → ℚ → ℚ) (fin : Img), dimsChain d fin.cols →
        inEq (dnnForward act l fin) (dnnForward act d fin)) := by
  refine ⟨reconList junk 0 d,
    readAllF_save junk d (saveDNN d).length 0 (le_refl _),
    reconList_length junk d 0, ?_, ?_⟩
  · intro i hi
    have hmem := getD_mem_of_lt d dTrans hi
    have hw := hwf _ hmem
    have hgd := reconList_getD junk d 0 i hi
    rw [Nat.zero_add] at hgd
    have hae := reconT_almostEq (d.getD i dTrans) (junk i) hw.1 hw.2
    refine ⟨?_, ?_, ?_, ?_, ?_⟩
    · rw [hgd]; exact hae.1
    · rw [hgd]; exact hae.2.1
    · rw [hgd]; exact hae.2.2.1
    · rw [hgd]; exact hae.2.2.2
    · intro p
      rw [hgd]
      exact reconT_lastcol (d.getD i dTrans) (junk i) p
  · intro act fin hchain
    have hfold := foldl_tForward_inEq act d (reconList junk 0 d)
      (forall2_reconList junk d 0 hwf) fin fin (inEq_refl fin) hchain
    obtain ⟨hr, hc, he⟩ := hfold
    refine ⟨?_, ?_, ?_⟩
    · show (List.foldl (fun m t => tForward act t m) fin (reconList junk 0 d)).rows
          = (List.foldl (fun m t => tForward act t m) fin d).rows
      exact hr
    · show (List.foldl (fun m t => tForward act t m) fin (reconList junk 0 d)).cols - 1
          = (List.foldl (fun m t => tForward act t m) fin d).cols - 1
      rw [hc]
    · intro p hp q hq
      have hp' : p < (List.foldl (fun m t => tForward act t m) fin d).rows := hp
      have hq' : q < (List.foldl (fun m t => tForward act t m) fin d).cols - 1 := hq
      exact he p hp' q (by omega)

/-- A concrete one-layer model for exercising the serializer: a 2×2 weight
matrix whose reserved last column holds 7 and 9. -/
def Tcx : Transform :=
  ⟨TType.sigmoid, ⟨2, 2, fun p q =>
    if p = 0 ∧ q = 0 then 5 else if p = 0 ∧ q = 1 then 7
    else if p = 1 ∧ q = 0 then 3 else 9⟩⟩

/-- Counterexample to C6 as stated: save never writes the last column of W
(here holding 7), and read leaves that column to the uninitialized buffer
(here modelled as 0), so the reconstructed weight matrix differs from the
original at entry (0, 1): the model read back is NOT equal to the saved
one. -/
theorem C6_claim_false :
    (((readDNN (fun _ _ => 0) (saveDNN [Tcx])).getD []).getD 0 dTrans).W.entry 0 1 = 0 ∧
    Tcx.W.entry 0 1 = 7 ∧ (0 : ℚ) ≠ 7 := by
  refine ⟨?_, by norm_num [Tcx], by norm_num⟩
  rfl

/-- A concrete one-layer model for the round-trip witness. -/
def Twit : Transform := ⟨TType.softmax, ⟨2, 2, fun p q => (p : ℚ) + q⟩⟩

/-- Witness for C6: the amended round-trip theorem applied to a concrete
one-softmax-layer model with junk value 1/3 in the unserialized column. -/
theorem C6_save_read_roundtrip_witness :
    (∀ t ∈ [Twit], 1 ≤ t.W.rows ∧ 1 ≤ t.W.cols) ∧
    (∃ l, readDNN (fun _ _ => 1/3) (saveDNN [Twit]) = some l ∧
      l.length = [Twit].length ∧
      (∀ i < [Twit].length,
        (l.getD i dTrans).typ = ([Twit].getD i dTrans).typ ∧
        (l.getD i dTrans).W.rows = ([Twit].getD i dTrans).W.rows ∧
        (l.getD i dTrans).W.cols = ([Twit].getD i dTrans).W.cols ∧
        (∀ p < ([Twit].getD i dTrans).W.rows,
          ∀ q, q + 1 < ([Twit].getD i dTrans).W.cols →
          (l.getD i dTrans).W.entry p q = ([Twit].getD i dTrans).W.entry p q) ∧
        (∀ p : ℕ, (l.getD i dTrans).W.entry p (([Twit].getD i dTrans).W.cols - 1)
          = 1/3)) ∧
      (∀ (act : TType → ℚ → ℚ) (fin : Img), dimsChain [Twit] fin.cols →
        inEq (dnnForward act l fin) (dnnForward act [Twit] fin))) := by
  have hw : ∀ t ∈ [Twit], 1 ≤ t.W.rows ∧ 1 ≤ t.W.cols := by
    intro t ht
    simp only [List.mem_singleton] at ht
    subst ht
    exact ⟨by decide, by decide⟩
  exact ⟨hw, C6_save_read_roundtrip [Twit] (fun _ _ => 1/3) hw⟩
